import Mathlib

/-!
Verification of the dynamic memory allocator in mm.c.

The allocator manages a heap that is an ordered sequence of physically
adjacent blocks.  Each block has a header word packing its total size
(a multiple of 16) with a 1-bit allocated flag; write_block always also
writes a footer word duplicating the header (for every block except the
free-list root sentinel).  Free blocks are threaded on a circular doubly
linked list anchored at a sentinel root; we model the traversal order
starting at the root's successor as a plain list of block addresses, so
that add_to_list (insertion before the root, i.e. at the list tail)
becomes appending and remove_from_list becomes erasing.

Addresses are byte offsets from the start of the heap.  mm_init lays out
a prologue word and the root pseudo-block in the first five words, so the
first real block lives at byte offset 40 and block payloads are at block
address + 8.  Machine arithmetic on size_t is modelled as Nat with
explicit reduction modulo 2 ^ 64 at the places where the C code can wrap.

The heap-growth primitive mem_sbrk and the byte primitives memcpy and
memset live in memlib.c, which is not part of this repository's sources.
Modelled from the spec: grow_heap extends the contiguous heap and returns
the previous top, failing when address space is exhausted; we model the
exhaustion bound as an explicit capacity field of the state.  memcpy and
memset are modelled as writes into the payload byte list of the target
block.

Undefined behaviour (dereferencing a word that is not a live block
header, or dividing by zero) is modelled by Except: an .error result
means the C program's execution is undefined from that point on.
-/

namespace MM

/-- Word size in bytes (wsize in mm.c). -/
def wsize : Nat := 8

/-- Double word size in bytes (dsize in mm.c). -/
def dsize : Nat := 2 * wsize

/-- Minimum block size in bytes (min_block_size in mm.c). -/
def min_block_size : Nat := 2 * dsize

/-- Heap extension unit in bytes (chunksize in mm.c, 1 << 12). -/
def chunksize : Nat := 2 ^ 12

/-- Required payload alignment (ALIGNMENT in mm.c). -/
def ALIGNMENT : Nat := 16

/-- The modulus of size_t / uint64_t arithmetic. -/
def W : Nat := 2 ^ 64

/-- Unsigned 64-bit subtraction, as C computes x - y on size_t
(the call sites all have y < W). -/
def csub (x y : Nat) : Nat := (x + W - y) % W

/-- pack from mm.c: or the allocated flag into the size word. -/
def pack (size : Nat) (is_allocated : Bool) : Nat :=
  if is_allocated then size ||| 1 else size

/-- extract_size from mm.c: word & ~0xF. -/
def extract_size (word : Nat) : Nat := word &&& (W - 16)

/-- extract_alloc from mm.c: word & 0x1 as a boolean. -/
def extract_alloc (word : Nat) : Bool := word &&& 1 ≠ 0

/-- round_up from mm.c: (n * ((size + (n - 1)) / n)), computed in size_t
arithmetic, so the addition wraps modulo 2 ^ 64. -/
def round_up (size n : Nat) : Nat := (n * (((size + (n - 1)) % W) / n)) % W

/-- align from mm.c: ALIGNMENT * ((x + ALIGNMENT - 1) / ALIGNMENT).
Used only on in-heap addresses, which stay far below 2 ^ 64, so the
wrap-free form is exact here. -/
def align (x : Nat) : Nat := ALIGNMENT * ((x + ALIGNMENT - 1) / ALIGNMENT)

/-- aligned from mm.c: whether align leaves the address unchanged. -/
def aligned (p : Nat) : Bool := align p = p

/-- The two boundary-tag words of one block: the header and the footer
word at the end of the block's extent.  This is the view of memory that
write_block touches. -/
structure BlockWords where
  hdr : Nat
  ftr : Nat
deriving DecidableEq, Repr

/-- write_block from mm.c, on the boundary-tag view: the header is set to
pack size is_allocated; then, unless the block is the free-list root
sentinel, the footer at payload + size - dsize is set to the same word.
Note the footer is written for allocated blocks as well as free ones. -/
def write_block (isRoot : Bool) (b : BlockWords) (size : Nat) (is_allocated : Bool) :
    BlockWords :=
  let b' := { b with hdr := pack size is_allocated }
  if isRoot then b'
  else { b' with ftr := pack size is_allocated }

/-- A block of the structured heap model: total size in bytes, allocated
flag, and the payload bytes (size - dsize of them; the header and footer
words are kept consistent by write_block, so they are represented by the
size and flag alone). -/
structure Block where
  size : Nat
  alloc : Bool
  data : List Nat
deriving DecidableEq, Repr

/-- Payload bytes of a freshly created block: unspecified contents,
modelled as zeros. -/
def freshData (size : Nat) : List Nat := List.replicate (size - dsize) 0

/-- Allocator state: the physical chain of blocks (first block at byte
offset 40, after the prologue word and the root pseudo-block), the free
list in traversal order from the root's successor, and the heap capacity
bound of the growth primitive (modelled from the spec: growth fails when
the heap would pass this bound). -/
structure State where
  blocks : List Block
  free : List Nat
  cap : Nat
deriving DecidableEq, Repr

/-- Total bytes occupied by a chain of blocks. -/
def sumSizes : List Block → Nat
  | [] => 0
  | b :: r => b.size + sumSizes r

/-- Current heap top: first byte past the last block. -/
def heapTop (s : State) : Nat := 40 + sumSizes s.blocks

/-- Dereference a block address: walk the physical chain from offset 40
and split it at the block starting exactly at the given address.  This is
the model of following a block_t pointer into the heap. -/
def locateGo (a : Nat) (addr : Nat) : List Block → Option (List Block × Block × List Block)
  | [] => none
  | b :: r =>
    if addr = a then some ([], b, r)
    else
      match locateGo a (addr + b.size) r with
      | none => none
      | some (L, B, R) => some (b :: L, B, R)

/-- Dereference a block address in a state's physical chain. -/
def locate (blocks : List Block) (a : Nat) : Option (List Block × Block × List Block) :=
  locateGo a 40 blocks

/-- get_size of the block at an address (0 when the address is not a
block start, as for the zero-size root sentinel). -/
def sizeAt (blocks : List Block) (a : Nat) : Nat :=
  match locate blocks a with
  | none => 0
  | some (_, b, _) => b.size

/-- add_to_list from mm.c: splice the block in before the root sentinel,
i.e. append it at the tail of the traversal order. -/
def add_to_list (fl : List Nat) (a : Nat) : List Nat := fl ++ [a]

/-- remove_from_list from mm.c: unlink the block from the circular list,
i.e. erase its (unique, for well-formed states) occurrence. -/
def remove_from_list (fl : List Nat) (a : Nat) : List Nat := fl.erase a

/-- payload_to_header from mm.c: subtract the header offset 8 from the
payload pointer, in wrapping pointer arithmetic. -/
def payload_to_header (p : Nat) : Nat := (p + (W - 8)) % W

/-- The free physical neighbour visible through a boundary tag: none when
the neighbour does not exist (heap edge, treated as allocated by the
in_heap checks of coalesce) or is allocated. -/
def freeNbr : Option Block → Option Block
  | none => none
  | some b => if b.alloc then none else some b

/-- coalesce from mm.c.  The physically previous block is inspected
through its footer one word before the current header (for the first
real block this reads the root sentinel's footer, which is permanently
allocated), the next block by address arithmetic; a neighbour outside the
heap counts as allocated.  Four cases on the neighbours' allocation
state; write_block writes the merged header and footer, and the sizes
are accumulated in the source's order.  The address passed in is always
a live block start at the call sites; otherwise the state is returned
unchanged (that branch models an unreachable dereference). -/
def coalesce (s : State) (a : Nat) : State :=
  match locate s.blocks a with
  | none => s
  | some (L, B, R) =>
    match freeNbr L.getLast?, freeNbr R.head? with
    | none, none =>                                               -- Case 1
      { s with free := add_to_list s.free a }
    | none, some n =>                                             -- Case 2
      { s with
        blocks := L ++ [⟨B.size + n.size, false, freshData (B.size + n.size)⟩] ++ R.tail,
        free := add_to_list (remove_from_list s.free (a + B.size)) a }
    | some p, none =>                                             -- Case 3
      { s with
        blocks := L.dropLast ++ [⟨B.size + p.size, false, freshData (B.size + p.size)⟩] ++ R,
        free := add_to_list (remove_from_list s.free (a - p.size)) (a - p.size) }
    | some p, some n =>                                           -- Case 4
      { s with
        blocks := L.dropLast ++
          [⟨B.size + (n.size + p.size), false, freshData (B.size + (n.size + p.size))⟩] ++
          R.tail,
        free := add_to_list
          (remove_from_list (remove_from_list s.free (a - p.size)) (a + B.size))
          (a - p.size) }

/-- find_fit from mm.c: walk the free list from the root's successor;
the loop stops at a zero-size node (the root sentinel, reached after the
tail) returning null, and returns the first block whose size is at least
asize. -/
def find_fitGo (blocks : List Block) (asize : Nat) : List Nat → Option Nat
  | [] => none
  | a :: rest =>
    if sizeAt blocks a = 0 then none
    else if asize ≤ sizeAt blocks a then some a
    else find_fitGo blocks asize rest

/-- find_fit from mm.c, on the state. -/
def find_fit (s : State) (asize : Nat) : Option Nat :=
  find_fitGo s.blocks asize s.free

/-- place from mm.c: remove the block from the free list and allocate it;
when block_size - asize (size_t subtraction) leaves at least
min_block_size, split off the remainder as a new free block appended to
the free list.  The payload bytes of the region are not written by place
itself, so the split keeps the underlying bytes. -/
def place (s : State) (a : Nat) (asize : Nat) : State :=
  match locate s.blocks a with
  | none => s
  | some (L, B, R) =>
    if min_block_size ≤ csub B.size asize then
      { s with
        blocks := L ++
          [⟨asize, true, B.data.take (asize - dsize)⟩,
           ⟨csub B.size asize, false, B.data.drop asize⟩] ++ R,
        free := add_to_list (remove_from_list s.free a) (a + asize) }
    else
      { s with
        blocks := L ++ [⟨B.size, true, B.data⟩] ++ R,
        free := remove_from_list s.free a }

/-- extend_heap from mm.c: round the request up to dsize, grow the heap
(mem_sbrk, modelled from the spec: returns the previous top, fails when
the capacity bound would be passed leaving the state unchanged), write a
free block over the new region and append it to the free list.  Note no
coalescing with a free predecessor happens here.  Returns the new block's
address alongside the new state. -/
def extend_heap (s : State) (size : Nat) : Option (State × Nat) :=
  let sz := round_up size dsize
  if s.cap < heapTop s + sz then none
  else
    some ({ s with
             blocks := s.blocks ++ [⟨sz, false, freshData sz⟩],
             free := add_to_list s.free (heapTop s) },
          heapTop s)

/-- malloc from mm.c: zero requests return null; otherwise the request is
rounded up to asize = round_up(size + dsize, dsize) in size_t arithmetic,
the free list is searched first-fit, and on failure the heap is extended
by max(asize, chunksize); extension failure propagates as a null result
with the state unchanged.  The chosen block is placed and its payload
address (block + 8) returned.  The states here are initialized ones
(free_root is never null), so the mm_init branch of the source does not
arise. -/
def malloc (s : State) (size : Nat) : State × Option Nat :=
  if size = 0 then (s, none)
  else
    let asize := round_up ((size + dsize) % W) dsize
    match find_fit s asize with
    | some b => (place s b asize, some (b + 8))
    | none =>
      let extendsize := max asize chunksize
      match extend_heap s extendsize with
      | none => (s, none)
      | some (s1, b) => (place s1 b asize, some (b + 8))

/-- mm_free from mm.c (named mmFree here because State.free is the free
list field): recover the header from the payload pointer, rewrite the
block as free with write_block keeping its size and payload bytes, and
coalesce.  Reading the header of an address that is not a live block
start (in particular the null pointer) is undefined behaviour, modelled
as an error. -/
def mmFree (s : State) (ptr : Nat) : Except Unit State :=
  match locate s.blocks (payload_to_header ptr) with
  | none => .error ()
  | some (L, B, R) =>
    let s1 : State := { s with blocks := L ++ [⟨B.size, false, B.data⟩] ++ R }
    .ok (coalesce s1 (payload_to_header ptr))

/-- memcpy / memset into the payload of the block at the given payload
pointer (modelled from the spec: the byte-copy and zero-fill primitives
overwrite the first bytes.length payload bytes of the target block). -/
def memcpyInto (s : State) (ptr : Nat) (bytes : List Nat) : State :=
  match locate s.blocks (payload_to_header ptr) with
  | none => s
  | some (L, B, R) =>
    { s with blocks := L ++ [⟨B.size, B.alloc, bytes ++ B.data.drop bytes.length⟩] ++ R }

/-- get_payload_size from mm.c: block size minus dsize. -/
def get_payload_size (b : Block) : Nat := b.size - dsize

/-- realloc from mm.c.  The size == 0 test comes before the null-pointer
test, so realloc(null, 0) calls free(null) and hits its undefined header
read; realloc(null, size) with size > 0 is malloc(size).  Otherwise a
fresh block is allocated; on failure the result is null and the state is
whatever malloc left (unchanged, as malloc mutates nothing when it
fails); on success min(size, old payload size) bytes are copied and the
old block freed. -/
def realloc (s : State) (ptr size : Nat) : Except Unit (State × Option Nat) :=
  if size = 0 then (mmFree s ptr).map (fun s' => (s', none))
  else if ptr = 0 then .ok (malloc s size)
  else
    let res := malloc s size
    match res.2 with
    | none => .ok (res.1, none)
    | some newptr =>
      match locate res.1.blocks (payload_to_header ptr) with
      | none => .error ()
      | some (_, old, _) =>
        let copysize := if size < get_payload_size old then size else get_payload_size old
        let s2 := memcpyInto res.1 newptr (old.data.take copysize)
        (mmFree s2 ptr).map (fun s3 => (s3, some newptr))

/-- calloc from mm.c: asize = elements * size in size_t arithmetic; the
overflow guard asize / elements != size divides by elements with no zero
test first, so elements = 0 reaches a division by zero — undefined
behaviour, modelled as the error branch (the source has no such branch).
When the guard detects overflow the result is null with no allocation
attempted; otherwise malloc and zero-fill. -/
def calloc (s : State) (elements size : Nat) : Except Unit (State × Option Nat) :=
  let asize := (elements * size) % W
  if elements = 0 then .error ()
  else if asize / elements ≠ size then .ok (s, none)
  else
    let res := malloc s asize
    match res.2 with
    | none => .ok (res.1, none)
    | some bp => .ok (memcpyInto res.1 bp (List.replicate asize 0), some bp)

instance {e a : Type} [DecidableEq e] [DecidableEq a] : DecidableEq (Except e a) :=
  fun x y =>
  match x, y with
  | .ok u, .ok v =>
    if h : u = v then isTrue (by rw [h])
    else isFalse (by intro hc; injection hc with h2; exact h h2)
  | .error u, .error v =>
    if h : u = v then isTrue (by rw [h])
    else isFalse (by intro hc; injection hc with h2; exact h h2)
  | .ok _, .error _ => isFalse (by intro hc; exact Except.noConfusion hc)
  | .error _, .ok _ => isFalse (by intro hc; exact Except.noConfusion hc)

/-- One public allocator operation. -/
inductive Op where
  | allocOp (n : Nat)
  | freeOp (p : Nat)
  | reallocOp (p n : Nat)
  | callocOp (a b : Nat)
deriving DecidableEq, Repr

/-- Run one public operation; returns the next state and the returned
pointer, or an error when the run is undefined. -/
def applyOp : Op → State → Except Unit (State × Option Nat)
  | .allocOp n, s => .ok (malloc s n)
  | .freeOp p, s => (mmFree s p).map (fun s' => (s', none))
  | .reallocOp p n, s => realloc s p n
  | .callocOp a b, s => calloc s a b

/-- Addresses of the free blocks of a physical chain starting at the
given base address, in physical order. -/
def freeAddrs (base : Nat) : List Block → List Nat
  | [] => []
  | b :: r => (if b.alloc then [] else [base]) ++ freeAddrs (base + b.size) r

/-- Of two physically adjacent blocks, at least one is allocated. -/
def nafP (x y : Block) : Prop := x.alloc = true ∨ y.alloc = true

instance : DecidableRel nafP := fun x y =>
  inferInstanceAs (Decidable (x.alloc = true ∨ y.alloc = true))

/-- Boolean check that no two physically adjacent blocks are both
free. -/
def noAdjFreeB : List Block → Bool
  | [] => true
  | [_] => true
  | x :: y :: r => (x.alloc || y.alloc) && noAdjFreeB (y :: r)

/-- No two physically adjacent blocks are both free (invariant 3 of the
specification). -/
def noAdjFree (blocks : List Block) : Prop :=
  List.Chain' nafP blocks

instance : DecidablePred noAdjFree := fun l =>
  decidable_of_iff (noAdjFreeB l = true) (by
    induction l with
    | nil => simp [noAdjFreeB, noAdjFree]
    | cons x r ih =>
      cases r with
      | nil => simp [noAdjFreeB, noAdjFree]
      | cons y r' =>
        unfold noAdjFree at ih ⊢
        rw [show noAdjFreeB (x :: y :: r') =
            ((x.alloc || y.alloc) && noAdjFreeB (y :: r')) from rfl,
          Bool.and_eq_true, Bool.or_eq_true, List.chain'_cons]
        exact and_congr Iff.rfl ih)

/-- Well-formedness of an allocator state: every block has a legal size
(invariant 2); no two adjacent blocks are both free (invariant 3); the
free list holds exactly the addresses of the free blocks (invariant 5);
and the heap fits under the growth capacity, itself below the size_t
range. -/
def Wf (s : State) : Prop :=
  (∀ b ∈ s.blocks, min_block_size ≤ b.size ∧ b.size % dsize = 0) ∧
  noAdjFree s.blocks ∧
  s.free.Perm (freeAddrs 40 s.blocks) ∧
  heapTop s ≤ s.cap ∧ s.cap < W

instance : DecidablePred Wf := fun s =>
  inferInstanceAs (Decidable
    ((∀ b ∈ s.blocks, min_block_size ≤ b.size ∧ b.size % dsize = 0) ∧
     noAdjFree s.blocks ∧
     s.free.Perm (freeAddrs 40 s.blocks) ∧
     heapTop s ≤ s.cap ∧ s.cap < W))

/-- The payload pointer denotes a live allocated block (the precondition
of free stated in the specification). -/
def validPayloadPtr (s : State) (p : Nat) : Prop :=
  match locate s.blocks (payload_to_header p) with
  | none => False
  | some (_, b, _) => b.alloc = true

instance : ∀ (s : State) (p : Nat), Decidable (validPayloadPtr s p) := fun s p =>
  match h : locate s.blocks (payload_to_header p) with
  | none => isFalse (by unfold validPayloadPtr; rw [h]; exact fun x => x)
  | some (l, b, r) => decidable_of_iff (b.alloc = true)
      (by unfold validPayloadPtr; rw [h])

/-- Arguments under which a public operation stays inside the modelled
size_t range and respects the specification's preconditions: allocation
sizes leave room for the rounding arithmetic not to wrap, and freed
pointers denote live allocated blocks. -/
def OpOK : Op → State → Prop
  | .allocOp n, _ => n + 32 ≤ W
  | .freeOp p, s => validPayloadPtr s p
  | .reallocOp p n, s => n + 32 ≤ W ∧ (p ≠ 0 → validPayloadPtr s p)
  | .callocOp a b, _ => a * b + 32 ≤ W

instance : ∀ (op : Op) (s : State), Decidable (OpOK op s) := fun op s =>
  match op with
  | .allocOp n => inferInstanceAs (Decidable (n + 32 ≤ W))
  | .freeOp p => inferInstanceAs (Decidable (validPayloadPtr s p))
  | .reallocOp p n =>
    inferInstanceAs (Decidable (n + 32 ≤ W ∧ (p ≠ 0 → validPayloadPtr s p)))
  | .callocOp a b => inferInstanceAs (Decidable (a * b + 32 ≤ W))

/-- Heap extension as the specification describes it: grow the heap and
coalesce the newly created free block with any free physical predecessor
(the coalescer performing the single free-list insertion), returning the
possibly relocated merged block.  This follows the specification's words
and is compared against extend_heap as translated from the source. -/
def extend_heap_spec (s : State) (size : Nat) : Option (State × Nat) :=
  let sz := round_up size dsize
  if s.cap < heapTop s + sz then none
  else
    let a := heapTop s
    let s1 : State := { s with blocks := s.blocks ++ [⟨sz, false, freshData sz⟩] }
    let a' := match freeNbr s.blocks.getLast? with
              | some p => a - p.size
              | none => a
    some (coalesce s1 a, a')

/-- malloc as the specification describes the no-fit path: identical to
malloc except that the heap extension coalesces with a free predecessor
before placement.  Used to compare the source behaviour against claim
C1's description. -/
def malloc_specExt (s : State) (size : Nat) : State × Option Nat :=
  if size = 0 then (s, none)
  else
    let asize := round_up ((size + dsize) % W) dsize
    match find_fit s asize with
    | some b => (place s b asize, some (b + 8))
    | none =>
      let extendsize := max asize chunksize
      match extend_heap_spec s extendsize with
      | none => (s, none)
      | some (s1, b) => (place s1 b asize, some (b + 8))

/-- The loop body checks of mm_checkheap from mm.c, walking the physical
chain as a list of boundary-tag word pairs with a running block address.
Per block, in source order: header versus the footer word read just
before the next block; payload alignment when allocated; minimum size;
size multiple of dsize; then the adjacent-free test, which the source
writes as (!curr_alloc || !next_alloc).  The loop bound
(next + 1 < mem_heap_hi()) stops before the last block, which is why the
singleton case returns true.  The source aims this walk at the first
real block after the prologue, though its pointer expression
(prologue + 5 * wsize, word_t pointer arithmetic) lands 320 bytes in
rather than 40; the walk is modelled from that intended first real
block so the per-step logic can be examined. -/
def mm_checkheapGo (addr : Nat) : List BlockWords → Bool
  | [] => true
  | [_] => true
  | c :: n :: rest =>
    if c.hdr ≠ c.ftr then false
    else if extract_alloc c.hdr && !aligned (addr + 8) then false
    else if extract_size c.hdr < min_block_size then false
    else if extract_size c.hdr % dsize ≠ 0 then false
    else if !extract_alloc c.hdr || !extract_alloc n.hdr then false
    else mm_checkheapGo (addr + extract_size c.hdr) (n :: rest)

/-- mm_checkheap from mm.c on the physical chain (the subsequent
free-list walk of the source only counts entries and reports nothing
relevant to the claims). -/
def mm_checkheap (l : List BlockWords) : Bool := mm_checkheapGo 40 l

/-- Modelled from the spec: the heap invariants that check_heap is meant
to verify on the physical chain — header equals footer, legal size,
aligned payload on allocated blocks, and no two physically consecutive
free blocks. -/
def specHeapInvariants (addr : Nat) : List BlockWords → Bool
  | [] => true
  | c :: r =>
    (c.hdr == c.ftr) &&
    decide (min_block_size ≤ extract_size c.hdr) &&
    decide (extract_size c.hdr % dsize = 0) &&
    (!extract_alloc c.hdr || aligned (addr + 8)) &&
    (match r.head? with
     | none => true
     | some n => extract_alloc c.hdr || extract_alloc n.hdr) &&
    specHeapInvariants (addr + extract_size c.hdr) r

/-- A heap state of the shape mm_init plus the first chunk extension
produce: one free block of chunksize bytes at offset 40. -/
def exampleInit : State := ⟨[⟨4096, false, freshData 4096⟩], [40], 10000⟩

/-- A heap whose topmost block is free, with an allocated block below:
the shape that exercises the extension path of malloc next to a free
predecessor. -/
def exampleTopFree : State :=
  ⟨[⟨48, true, freshData 48⟩, ⟨32, false, freshData 32⟩], [88], 9000⟩

/-- A heap with no free block and a capacity too small for any
extension, so every allocation fails. -/
def exampleExhausted : State := ⟨[⟨32, true, freshData 32⟩], [], 100⟩

/-- A heap with two free blocks whose free-list order (most recently
freed block first at address 120, older one at 40) differs from address
order, to exhibit the first-fit tie-break. -/
def exampleTwoFree : State :=
  ⟨[⟨32, false, freshData 32⟩, ⟨48, true, freshData 48⟩, ⟨64, false, freshData 64⟩],
   [120, 40], 9000⟩

/-- A physical chain (as boundary-tag words) with one free block between
two allocated ones: all invariants hold, in particular no two adjacent
blocks are both free. -/
def exampleCheckheapInput : List BlockWords :=
  [⟨pack 32 true, pack 32 true⟩, ⟨pack 32 false, pack 32 false⟩,
   ⟨pack 32 true, pack 32 true⟩]

theorem W_eq : W = 18446744073709551616 := by norm_num [W]

theorem csub_eq_sub {x y : Nat} (hy : y ≤ x) (hx : x < W) : csub x y = x - y := by
  have hW := W_eq
  unfold csub
  have h1 : x + W - y = W + (x - y) := by omega
  rw [h1, Nat.add_mod_left, Nat.mod_eq_of_lt (by omega)]

theorem sumSizes_append (l₁ l₂ : List Block) :
    sumSizes (l₁ ++ l₂) = sumSizes l₁ + sumSizes l₂ := by
  induction l₁ with
  | nil => simp [sumSizes]
  | cons b r ih => simp [sumSizes, ih]; omega

theorem size_le_sumSizes {b : Block} {l : List Block} (h : b ∈ l) :
    b.size ≤ sumSizes l := by
  induction l with
  | nil => simp at h
  | cons x r ih =>
    rcases List.mem_cons.1 h with rfl | h
    · simp [sumSizes]
    · have := ih h; simp [sumSizes]; omega

theorem freeAddrs_append (base : Nat) (l₁ l₂ : List Block) :
    freeAddrs base (l₁ ++ l₂) =
      freeAddrs base l₁ ++ freeAddrs (base + sumSizes l₁) l₂ := by
  induction l₁ generalizing base with
  | nil => simp [freeAddrs, sumSizes]
  | cons b r ih =>
    simp [freeAddrs, sumSizes, ih, List.append_assoc, Nat.add_assoc]

theorem le_of_mem_freeAddrs {x base : Nat} {l : List Block}
    (h : x ∈ freeAddrs base l) : base ≤ x := by
  induction l generalizing base with
  | nil => simp [freeAddrs] at h
  | cons b r ih =>
    cases hb : b.alloc <;> simp [freeAddrs, hb] at h
    · rcases h with rfl | h
      · exact le_refl x
      · exact le_trans (Nat.le_add_right _ _) (ih h)
    · exact le_trans (Nat.le_add_right _ _) (ih h)

theorem lt_of_mem_freeAddrs {x base : Nat} {l : List Block}
    (hpos : ∀ b ∈ l, 0 < b.size) (h : x ∈ freeAddrs base l) :
    x < base + sumSizes l := by
  induction l generalizing base with
  | nil => simp [freeAddrs] at h
  | cons b r ih =>
    have hb0 : 0 < b.size := hpos b (List.mem_cons_self _ _)
    have hrest : ∀ b' ∈ r, 0 < b'.size := fun b' hb' => hpos b' (List.mem_cons_of_mem _ hb')
    cases hb : b.alloc <;> simp [freeAddrs, hb] at h
    · rcases h with rfl | h
      · simp [sumSizes]; omega
      · have := ih hrest h; simp [sumSizes]; omega
    · have := ih hrest h; simp [sumSizes]; omega

theorem exists_decomp_of_mem_freeAddrs {x base : Nat} {l : List Block}
    (h : x ∈ freeAddrs base l) :
    ∃ L B R, l = L ++ B :: R ∧ x = base + sumSizes L ∧ B.alloc = false := by
  induction l generalizing base with
  | nil => simp [freeAddrs] at h
  | cons b r ih =>
    cases hb : b.alloc <;> simp [freeAddrs, hb] at h
    · rcases h with rfl | h
      · exact ⟨[], b, r, rfl, by simp [sumSizes], hb⟩
      · obtain ⟨L, B, R, h1, h2, h3⟩ := ih h
        exact ⟨b :: L, B, R, by simp [h1], by simp [sumSizes]; omega, h3⟩
    · obtain ⟨L, B, R, h1, h2, h3⟩ := ih h
      exact ⟨b :: L, B, R, by simp [h1], by simp [sumSizes]; omega, h3⟩

theorem locateGo_eq : ∀ (L : List Block) (base a : Nat) (B : Block) (R : List Block),
    (∀ b ∈ L, 0 < b.size) → a = base + sumSizes L →
    locateGo a base (L ++ B :: R) = some (L, B, R) := by
  intro L
  induction L with
  | nil =>
    intro base a B R _ ha
    have hba : base = a := by simp [sumSizes] at ha; omega
    simp [locateGo, hba]
  | cons b L' ih =>
    intro base a B R hpos ha
    have hb0 : 0 < b.size := hpos b (List.mem_cons_self _ _)
    have ha' : a = base + b.size + sumSizes L' := by simp [sumSizes] at ha; omega
    have hne : ¬(base = a) := by omega
    have hrec := ih (base + b.size) a B R
      (fun b' hb' => hpos b' (List.mem_cons_of_mem _ hb')) ha'
    simp only [List.cons_append, locateGo, if_neg hne, List.append_eq, hrec]

theorem locate_eq {L : List Block} (B : Block) (R : List Block)
    (hpos : ∀ b ∈ L, 0 < b.size) :
    locate (L ++ B :: R) (40 + sumSizes L) = some (L, B, R) :=
  locateGo_eq L 40 _ B R hpos rfl

theorem locateGo_none : ∀ (l : List Block) (base a : Nat),
    base + sumSizes l ≤ a → (∀ b ∈ l, 0 < b.size) →
    locateGo a base l = none := by
  intro l
  induction l with
  | nil => intro base a _ _; simp [locateGo]
  | cons b r ih =>
    intro base a h hpos
    have hb0 : 0 < b.size := hpos b (List.mem_cons_self _ _)
    have hne : ¬(base = a) := by simp [sumSizes] at h; omega
    have hrec := ih (base + b.size) a (by simp [sumSizes] at h; omega)
      (fun b' hb' => hpos b' (List.mem_cons_of_mem _ hb'))
    simp only [locateGo, if_neg hne, hrec]

theorem find_fitGo_mem {blocks : List Block} {asize : Nat} {fl : List Nat} {a : Nat}
    (h : find_fitGo blocks asize fl = some a) :
    a ∈ fl ∧ asize ≤ sizeAt blocks a := by
  induction fl with
  | nil => simp [find_fitGo] at h
  | cons x r ih =>
    by_cases h0 : sizeAt blocks x = 0
    · simp [find_fitGo, h0] at h
    · by_cases h1 : asize ≤ sizeAt blocks x
      · simp [find_fitGo, h0, h1] at h
        subst h
        exact ⟨List.mem_cons_self _ _, h1⟩
      · simp [find_fitGo, h0, h1] at h
        obtain ⟨hm, hs⟩ := ih h
        exact ⟨List.mem_cons_of_mem _ hm, hs⟩

theorem find_fitGo_none_iff {blocks : List Block} {asize : Nat} {fl : List Nat}
    (hnz : ∀ x ∈ fl, sizeAt blocks x ≠ 0) :
    find_fitGo blocks asize fl = none ↔ ∀ x ∈ fl, sizeAt blocks x < asize := by
  induction fl with
  | nil => simp [find_fitGo]
  | cons x r ih =>
    have hx : sizeAt blocks x ≠ 0 := hnz x (List.mem_cons_self _ _)
    have hrest : ∀ y ∈ r, sizeAt blocks y ≠ 0 := fun y hy => hnz y (List.mem_cons_of_mem _ hy)
    by_cases h1 : asize ≤ sizeAt blocks x
    · simp only [find_fitGo, if_neg hx, if_pos h1]
      constructor
      · intro h; cases h
      · intro h
        exact absurd (h x (List.mem_cons_self _ _)) (by omega)
    · simp only [find_fitGo, if_neg hx, if_neg h1, ih hrest]
      constructor
      · intro h y hy
        rcases List.mem_cons.1 hy with rfl | hy
        · omega
        · exact h y hy
      · intro h y hy
        exact h y (List.mem_cons_of_mem _ hy)

theorem find_fitGo_first {blocks : List Block} {asize : Nat} {fl : List Nat} {a : Nat}
    (hnz : ∀ x ∈ fl, sizeAt blocks x ≠ 0)
    (h : find_fitGo blocks asize fl = some a) :
    ∃ l r, fl = l ++ a :: r ∧ ∀ x ∈ l, sizeAt blocks x < asize := by
  induction fl with
  | nil => simp [find_fitGo] at h
  | cons x r ih =>
    have hx : sizeAt blocks x ≠ 0 := hnz x (List.mem_cons_self _ _)
    have hrest : ∀ y ∈ r, sizeAt blocks y ≠ 0 := fun y hy => hnz y (List.mem_cons_of_mem _ hy)
    by_cases h1 : asize ≤ sizeAt blocks x
    · simp [find_fitGo, hx, h1] at h
      subst h
      exact ⟨[], r, rfl, by simp⟩
    · simp [find_fitGo, hx, h1] at h
      obtain ⟨l, r', h2, h3⟩ := ih hrest h
      exact ⟨x :: l, r', by simp [h2], by
        intro y hy
        rcases List.mem_cons.1 hy with rfl | hy
        · omega
        · exact h3 y hy⟩

theorem wf_pos {s : State} (h : Wf s) : ∀ b ∈ s.blocks, 0 < b.size := by
  intro b hb
  have h1 := (h.1 b hb).1
  simp [min_block_size, dsize, wsize] at h1
  omega

theorem wf_size_lt_W {s : State} (h : Wf s) : ∀ b ∈ s.blocks, b.size < W := by
  intro b hb
  have h1 := size_le_sumSizes hb
  have h2 := h.2.2.2.1
  have h3 := h.2.2.2.2
  unfold heapTop at h2
  omega

theorem round_up_16 {x : Nat} (hx : x + 15 < W) :
    round_up x dsize = 16 * ((x + 15) / 16) := by
  have hle : 16 * ((x + 15) / 16) ≤ x + 15 := by
    rw [Nat.mul_comm]; exact Nat.div_mul_le_self _ _
  unfold round_up dsize wsize
  norm_num
  rw [Nat.mod_eq_of_lt (show x + 15 < W by omega),
      Nat.mod_eq_of_lt (lt_of_le_of_lt hle hx)]

theorem asize_eq {n : Nat} (h2 : n + 32 ≤ W) :
    round_up ((n + dsize) % W) dsize = 16 * ((n + 31) / 16) := by
  have hx : n + dsize < W := by unfold dsize wsize; omega
  rw [Nat.mod_eq_of_lt hx, round_up_16 (by unfold dsize wsize; omega)]
  have : n + dsize + 15 = n + 31 := by unfold dsize wsize; omega
  rw [this]

theorem asize_ge {n : Nat} (h1 : 1 ≤ n) : 32 ≤ 16 * ((n + 31) / 16) := by
  have h : 2 ≤ (n + 31) / 16 := (Nat.le_div_iff_mul_le (by norm_num)).2 (by omega)
  omega

theorem asize_le {n : Nat} : 16 * ((n + 31) / 16) ≤ n + 31 := by
  rw [Nat.mul_comm]; exact Nat.div_mul_le_self _ _

theorem place_eq {L : List Block} {B : Block} {R : List Block} {fr : List Nat}
    {cap asize : Nat}
    (hpos : ∀ b ∈ L, 0 < b.size) (hle : asize ≤ B.size) (hlt : B.size < W) :
    place ⟨L ++ B :: R, fr, cap⟩ (40 + sumSizes L) asize =
      if min_block_size ≤ B.size - asize then
        ⟨L ++ ⟨asize, true, B.data.take (asize - dsize)⟩ ::
              ⟨B.size - asize, false, B.data.drop asize⟩ :: R,
         add_to_list (remove_from_list fr (40 + sumSizes L)) (40 + sumSizes L + asize),
         cap⟩
      else
        ⟨L ++ ⟨B.size, true, B.data⟩ :: R,
         remove_from_list fr (40 + sumSizes L), cap⟩ := by
  unfold place
  simp only [locate_eq B R hpos, csub_eq_sub hle hlt]
  by_cases hc : min_block_size ≤ B.size - asize <;> simp [hc]

theorem min_block_size_eq : min_block_size = 32 := by
  norm_num [min_block_size, dsize, wsize]

theorem dsize_eq : dsize = 16 := by norm_num [dsize, wsize]

theorem chunksize_eq : chunksize = 4096 := by norm_num [chunksize]

theorem place_wf {L : List Block} {B : Block} {R : List Block} {fr : List Nat}
    {cap asize : Nat}
    (hsz : ∀ b ∈ L ++ B :: R, min_block_size ≤ b.size ∧ b.size % dsize = 0)
    (hchL : List.Chain' nafP L) (hchR : List.Chain' nafP R)
    (hheadR : ∀ y ∈ R.head?, y.alloc = true)
    (hBfree : B.alloc = false)
    (hle : asize ≤ B.size) (h32 : 32 ≤ asize) (h16 : asize % 16 = 0)
    (hfr : fr.Perm (freeAddrs 40 (L ++ B :: R)))
    (hcap : 40 + sumSizes (L ++ B :: R) ≤ cap) (hW : cap < W) :
    Wf (place ⟨L ++ B :: R, fr, cap⟩ (40 + sumSizes L) asize) := by
  have hmbs := min_block_size_eq
  have hds := dsize_eq
  have hposL : ∀ b ∈ L, 0 < b.size := fun b hb => by
    have := (hsz b (List.mem_append_left _ hb)).1
    omega
  have hBsz := hsz B (List.mem_append_right _ (List.mem_cons_self _ _))
  have hsum : sumSizes (L ++ B :: R) = sumSizes L + B.size + sumSizes R := by
    simp [sumSizes_append, sumSizes]; omega
  have hBlt : B.size < W := by
    have := size_le_sumSizes (List.mem_append_right L (List.mem_cons_self B R))
    omega
  have hFA : freeAddrs 40 (L ++ B :: R) =
      freeAddrs 40 L ++ (40 + sumSizes L) :: freeAddrs (40 + sumSizes L + B.size) R := by
    rw [freeAddrs_append]
    simp [freeAddrs, hBfree, Nat.add_assoc]
  have hnotinL : (40 + sumSizes L) ∉ freeAddrs 40 L := by
    intro hmem
    have := lt_of_mem_freeAddrs hposL hmem
    omega
  have herase : (fr.erase (40 + sumSizes L)).Perm
      (freeAddrs 40 L ++ freeAddrs (40 + sumSizes L + B.size) R) := by
    have h := hfr.erase (40 + sumSizes L)
    rwa [hFA, List.erase_append_right _ hnotinL, List.erase_cons_head] at h
  rw [place_eq hposL hle hBlt]
  by_cases hc : min_block_size ≤ B.size - asize
  · rw [if_pos hc]
    refine ⟨?_, ?_, ?_, ?_, hW⟩
    · intro b hb
      rcases List.mem_append.1 hb with hb | hb
      · exact hsz b (List.mem_append_left _ hb)
      · rcases List.mem_cons.1 hb with rfl | hb
        · exact ⟨by dsimp only; omega, by dsimp only; rw [dsize_eq]; omega⟩
        · rcases List.mem_cons.1 hb with rfl | hb
          · refine ⟨by dsimp only; omega, ?_⟩
            dsimp only
            have h2 := hBsz.2
            rw [dsize_eq] at h2 ⊢
            omega
          · exact hsz b (List.mem_append_right _ (List.mem_cons_of_mem _ hb))
    · refine List.chain'_append.2 ⟨hchL, ?_, ?_⟩
      · refine List.chain'_cons'.2 ⟨fun y _ => Or.inl rfl, ?_⟩
        exact List.chain'_cons'.2 ⟨fun y hy => Or.inr (hheadR y hy), hchR⟩
      · intro x _ y hy
        simp at hy
        subst hy
        exact Or.inr rfl
    · have hFA' : freeAddrs 40
          (L ++ ⟨asize, true, B.data.take (asize - dsize)⟩ ::
                ⟨B.size - asize, false, B.data.drop asize⟩ :: R) =
          freeAddrs 40 L ++ (40 + sumSizes L + asize) ::
            freeAddrs (40 + sumSizes L + B.size) R := by
        rw [freeAddrs_append]
        have hb' : 40 + sumSizes L + asize + (B.size - asize) =
            40 + sumSizes L + B.size := by omega
        simp [freeAddrs, Nat.add_assoc]
        rw [show sumSizes L + (asize + (B.size - asize)) = sumSizes L + B.size by omega]
      rw [hFA']
      unfold add_to_list remove_from_list
      refine List.Perm.trans (herase.append_right [40 + sumSizes L + asize]) ?_
      rw [List.append_assoc,
        show ((40 + sumSizes L + asize) ::
            freeAddrs (40 + sumSizes L + B.size) R) =
          [40 + sumSizes L + asize] ++
            freeAddrs (40 + sumSizes L + B.size) R from rfl]
      exact List.Perm.append_left _ List.perm_append_comm
    · show 40 + sumSizes _ ≤ cap
      rw [hsum] at hcap
      simp only [sumSizes_append, sumSizes]
      omega
  · rw [if_neg hc]
    refine ⟨?_, ?_, ?_, ?_, hW⟩
    · intro b hb
      rcases List.mem_append.1 hb with hb | hb
      · exact hsz b (List.mem_append_left _ hb)
      · rcases List.mem_cons.1 hb with rfl | hb
        · exact ⟨by dsimp only; have := hBsz.1; omega,
                 by dsimp only; exact hBsz.2⟩
        · exact hsz b (List.mem_append_right _ (List.mem_cons_of_mem _ hb))
    · refine List.chain'_append.2 ⟨hchL, ?_, ?_⟩
      · exact List.chain'_cons'.2 ⟨fun y _ => Or.inl rfl, hchR⟩
      · intro x _ y hy
        simp at hy
        subst hy
        exact Or.inr rfl
    · have hFA' : freeAddrs 40 (L ++ ⟨B.size, true, B.data⟩ :: R) =
          freeAddrs 40 L ++ freeAddrs (40 + sumSizes L + B.size) R := by
        rw [freeAddrs_append]
        simp [freeAddrs, Nat.add_assoc]
      rw [hFA']
      exact herase
    · show 40 + sumSizes _ ≤ cap
      rw [hsum] at hcap
      simp only [sumSizes_append, sumSizes]
      omega

theorem perm_insert_mid {fr X Y : List Nat} {x : Nat} (h : fr.Perm (X ++ Y)) :
    (fr ++ [x]).Perm (X ++ x :: Y) := by
  refine (h.append_right [x]).trans ?_
  rw [List.append_assoc, show x :: Y = [x] ++ Y from rfl]
  exact List.Perm.append_left _ List.perm_append_comm

theorem perm_erase_mid {fr X Y : List Nat} {x : Nat} (h : fr.Perm (X ++ x :: Y))
    (hx : x ∉ X) : (fr.erase x).Perm (X ++ Y) := by
  have h2 := h.erase x
  rwa [List.erase_append_right _ hx, List.erase_cons_head] at h2

theorem chain'_glue {L R : List Block} {M : Block}
    (hchL : List.Chain' nafP L) (hchR : List.Chain' nafP R)
    (hl : ∀ x ∈ L.getLast?, nafP x M) (hr : ∀ y ∈ R.head?, nafP M y) :
    List.Chain' nafP (L ++ M :: R) := by
  refine List.chain'_append.2 ⟨hchL, List.chain'_cons'.2 ⟨hr, hchR⟩, ?_⟩
  intro x hx y hy
  simp at hy
  subst hy
  exact hl x hx

theorem forall_mem_glue {Q : Block → Prop} {L R : List Block} {M : Block}
    (hL : ∀ b ∈ L, Q b) (hR : ∀ b ∈ R, Q b) (hM : Q M) :
    ∀ b ∈ L ++ M :: R, Q b := by
  intro b hb
  rcases List.mem_append.1 hb with hb | hb
  · exact hL b hb
  · rcases List.mem_cons.1 hb with rfl | hb
    · exact hM
    · exact hR b hb

theorem freeNbr_getLast?_some {l : List Block} {p : Block}
    (h : freeNbr l.getLast? = some p) :
    l = l.dropLast ++ [p] ∧ p.alloc = false := by
  cases hl : l.getLast? with
  | none => simp [hl, freeNbr] at h
  | some q =>
    rw [hl] at h
    unfold freeNbr at h
    by_cases hq : q.alloc
    · simp [hq] at h
    · simp [hq] at h
      subst h
      exact ⟨(List.dropLast_append_getLast? _ (by simp [hl])).symm,
             by simpa using hq⟩

theorem freeNbr_head?_some {l : List Block} {n : Block}
    (h : freeNbr l.head? = some n) :
    l = n :: l.tail ∧ n.alloc = false := by
  cases l with
  | nil => simp [freeNbr] at h
  | cons x r =>
    rw [show (x :: r).head? = some x from rfl] at h
    unfold freeNbr at h
    by_cases hx : x.alloc
    · simp [hx] at h
    · simp [hx] at h
      subst h
      exact ⟨rfl, by simpa using hx⟩

theorem option_mem_eq {α : Type} {o : Option α} {a : α} (h : a ∈ o) : o = some a :=
  Option.mem_def.1 h

theorem freeNbr_none_head? {l : List Block} (h : freeNbr l.head? = none) :
    ∀ y ∈ l.head?, y.alloc = true := by
  intro y hy
  rw [option_mem_eq hy] at h
  unfold freeNbr at h
  by_cases hx : y.alloc
  · exact hx
  · simp [hx] at h

theorem freeNbr_none_getLast? {l : List Block} (h : freeNbr l.getLast? = none) :
    ∀ y ∈ l.getLast?, y.alloc = true := by
  intro y hy
  rw [option_mem_eq hy] at h
  unfold freeNbr at h
  by_cases hx : y.alloc
  · exact hx
  · simp [hx] at h

theorem coalesce_case1 {L : List Block} {B : Block} {R : List Block}
    {fr : List Nat} {cap : Nat}
    (hposL : ∀ b ∈ L, 0 < b.size)
    (hprev : freeNbr L.getLast? = none) (hnext : freeNbr R.head? = none) :
    coalesce ⟨L ++ B :: R, fr, cap⟩ (40 + sumSizes L) =
      ⟨L ++ B :: R, add_to_list fr (40 + sumSizes L), cap⟩ := by
  unfold coalesce
  simp only [locate_eq B R hposL, hprev, hnext]

theorem coalesce_case2 {L : List Block} {B N : Block} {R' : List Block}
    {fr : List Nat} {cap : Nat}
    (hposL : ∀ b ∈ L, 0 < b.size)
    (hprev : freeNbr L.getLast? = none) (hN : N.alloc = false) :
    coalesce ⟨L ++ B :: N :: R', fr, cap⟩ (40 + sumSizes L) =
      ⟨L ++ ⟨B.size + N.size, false, freshData (B.size + N.size)⟩ :: R',
       add_to_list (remove_from_list fr (40 + sumSizes L + B.size)) (40 + sumSizes L),
       cap⟩ := by
  unfold coalesce
  simp only [locate_eq B (N :: R') hposL, hprev]
  simp [freeNbr, hN]

theorem coalesce_case3 {L' : List Block} {P B : Block} {R : List Block}
    {fr : List Nat} {cap : Nat}
    (hposL : ∀ b ∈ L' ++ [P], 0 < b.size)
    (hP : P.alloc = false) (hnext : freeNbr R.head? = none) :
    coalesce ⟨(L' ++ [P]) ++ B :: R, fr, cap⟩ (40 + sumSizes (L' ++ [P])) =
      ⟨L' ++ ⟨B.size + P.size, false, freshData (B.size + P.size)⟩ :: R,
       add_to_list (remove_from_list fr (40 + sumSizes (L' ++ [P]) - P.size))
         (40 + sumSizes (L' ++ [P]) - P.size),
       cap⟩ := by
  unfold coalesce
  simp only [locate_eq B R hposL, hnext]
  rw [List.getLast?_concat]
  simp [freeNbr, hP, List.dropLast_concat]

theorem coalesce_case4 {L' : List Block} {P B N : Block} {R' : List Block}
    {fr : List Nat} {cap : Nat}
    (hposL : ∀ b ∈ L' ++ [P], 0 < b.size)
    (hP : P.alloc = false) (hN : N.alloc = false) :
    coalesce ⟨(L' ++ [P]) ++ B :: N :: R', fr, cap⟩ (40 + sumSizes (L' ++ [P])) =
      ⟨L' ++ ⟨B.size + (N.size + P.size), false,
              freshData (B.size + (N.size + P.size))⟩ :: R',
       add_to_list
         (remove_from_list
           (remove_from_list fr (40 + sumSizes (L' ++ [P]) - P.size))
           (40 + sumSizes (L' ++ [P]) + B.size))
         (40 + sumSizes (L' ++ [P]) - P.size),
       cap⟩ := by
  unfold coalesce
  simp only [locate_eq B (N :: R') hposL]
  rw [List.getLast?_concat]
  simp [freeNbr, hP, hN, List.dropLast_concat]

theorem coalesce_wf {L : List Block} {Bf : Block} {R : List Block} {fr : List Nat}
    {cap : Nat}
    (hsz : ∀ b ∈ L ++ Bf :: R, min_block_size ≤ b.size ∧ b.size % dsize = 0)
    (hchL : List.Chain' nafP L) (hchR : List.Chain' nafP R)
    (hBfree : Bf.alloc = false)
    (hfr : fr.Perm (freeAddrs 40 L ++ freeAddrs (40 + sumSizes L + Bf.size) R))
    (hcap : 40 + sumSizes (L ++ Bf :: R) ≤ cap) (hW : cap < W) :
    Wf (coalesce ⟨L ++ Bf :: R, fr, cap⟩ (40 + sumSizes L)) := by
  have hmbs := min_block_size_eq
  have hds := dsize_eq
  cases hPrev : freeNbr L.getLast? with
  | none =>
    have hposL : ∀ b ∈ L, 0 < b.size := fun b hb => by
      have := (hsz b (List.mem_append_left _ hb)).1
      omega
    have hLlast := freeNbr_none_getLast? hPrev
    cases hNext : freeNbr R.head? with
    | none =>
      have hRhead := freeNbr_none_head? hNext
      rw [coalesce_case1 hposL hPrev hNext]
      have hFA3 : freeAddrs 40 (L ++ Bf :: R) =
          freeAddrs 40 L ++ (40 + sumSizes L) ::
            freeAddrs (40 + sumSizes L + Bf.size) R := by
        rw [freeAddrs_append]
        simp [freeAddrs, hBfree, Nat.add_assoc]
      refine ⟨hsz, ?_, ?_, hcap, hW⟩
      · exact chain'_glue hchL hchR
          (fun x hx => Or.inl (hLlast x hx))
          (fun y hy => Or.inr (hRhead y hy))
      · unfold add_to_list
        rw [hFA3]
        exact perm_insert_mid hfr
    | some N =>
      obtain ⟨hReq, hNfree⟩ := freeNbr_head?_some hNext
      rw [hReq] at hsz hchR hfr hcap ⊢
      rw [coalesce_case2 hposL hPrev hNfree]
      have hszB := hsz Bf (List.mem_append_right _ (List.mem_cons_self _ _))
      have hszN := hsz N
        (List.mem_append_right _ (List.mem_cons_of_mem _ (List.mem_cons_self _ _)))
      have hchR' := List.chain'_cons'.1 hchR
      refine ⟨?_, ?_, ?_, ?_, hW⟩
      · refine forall_mem_glue ?_ ?_ ?_
        · exact fun b hb => hsz b (List.mem_append_left _ hb)
        · exact fun b hb => hsz b (List.mem_append_right _
            (List.mem_cons_of_mem _ (List.mem_cons_of_mem _ hb)))
        · constructor
          · dsimp only; omega
          · dsimp only
            rw [hds]
            have h1 := hszB.2
            have h2 := hszN.2
            rw [hds] at h1 h2
            omega
      · refine chain'_glue hchL hchR'.2
          (fun x hx => Or.inl (hLlast x hx)) ?_
        intro y hy
        rcases hchR'.1 y hy with hN | hy'
        · rw [hNfree] at hN; cases hN
        · exact Or.inr hy'
      · have hfr' : fr.Perm (freeAddrs 40 L ++ (40 + sumSizes L + Bf.size) ::
            freeAddrs (40 + sumSizes L + Bf.size + N.size) R.tail) := by
          rw [show freeAddrs (40 + sumSizes L + Bf.size) (N :: R.tail) =
              (40 + sumSizes L + Bf.size) ::
                freeAddrs (40 + sumSizes L + Bf.size + N.size) R.tail by
            simp [freeAddrs, hNfree]] at hfr
          exact hfr
        have hnotin : (40 + sumSizes L + Bf.size) ∉ freeAddrs 40 L := by
          intro hmem
          have := lt_of_mem_freeAddrs hposL hmem
          omega
        have h1 := perm_erase_mid hfr' hnotin
        unfold add_to_list remove_from_list
        have hFA' : freeAddrs 40
            (L ++ (⟨Bf.size + N.size, false, freshData (Bf.size + N.size)⟩ : Block) ::
              R.tail) =
            freeAddrs 40 L ++ (40 + sumSizes L) ::
              freeAddrs (40 + sumSizes L + Bf.size + N.size) R.tail := by
          rw [freeAddrs_append]
          simp [freeAddrs, Nat.add_assoc]
        rw [hFA']
        exact perm_insert_mid h1
      · show 40 + sumSizes _ ≤ cap
        simp only [sumSizes_append, sumSizes] at hcap ⊢
        omega
  | some P =>
    obtain ⟨hLeq, hPfree⟩ := freeNbr_getLast?_some hPrev
    rw [hLeq] at hsz hchL hfr hcap ⊢
    have hposL : ∀ b ∈ L.dropLast ++ [P], 0 < b.size := fun b hb => by
      have := (hsz b (List.mem_append_left _ hb)).1
      omega
    have hposL' : ∀ b ∈ L.dropLast, 0 < b.size :=
      fun b hb => hposL b (List.mem_append_left _ hb)
    have hszP := hsz P (List.mem_append_left _
      (List.mem_append_right _ (List.mem_cons_self _ _)))
    have hszB := hsz Bf (List.mem_append_right _ (List.mem_cons_self _ _))
    have hsumLP : sumSizes (L.dropLast ++ [P]) = sumSizes L.dropLast + P.size := by
      simp [sumSizes_append, sumSizes]
    have hchSplit := List.chain'_append.1 hchL
    have hlastL' : ∀ x ∈ L.dropLast.getLast?, x.alloc = true := by
      intro x hx
      rcases hchSplit.2.2 x hx P (by simp) with hxa | hPa
      · exact hxa
      · rw [hPfree] at hPa; cases hPa
    have hFAL : freeAddrs 40 (L.dropLast ++ [P]) =
        freeAddrs 40 L.dropLast ++ [40 + sumSizes L.dropLast] := by
      rw [freeAddrs_append]
      simp [freeAddrs, hPfree]
    have hpA : 40 + sumSizes (L.dropLast ++ [P]) - P.size =
        40 + sumSizes L.dropLast := by omega
    cases hNext : freeNbr R.head? with
    | none =>
      have hRhead := freeNbr_none_head? hNext
      rw [coalesce_case3 hposL hPfree hNext, hpA]
      refine ⟨?_, ?_, ?_, ?_, hW⟩
      · refine forall_mem_glue ?_ ?_ ?_
        · exact fun b hb => hsz b (List.mem_append_left _ (List.mem_append_left _ hb))
        · exact fun b hb => hsz b (List.mem_append_right _ (List.mem_cons_of_mem _ hb))
        · constructor
          · dsimp only; omega
          · dsimp only
            rw [hds]
            have h1 := hszB.2
            have h2 := hszP.2
            rw [hds] at h1 h2
            omega
      · exact chain'_glue hchSplit.1 hchR
          (fun x hx => Or.inl (hlastL' x hx))
          (fun y hy => Or.inr (hRhead y hy))
      · have hfr' : fr.Perm (freeAddrs 40 L.dropLast ++ (40 + sumSizes L.dropLast) ::
            freeAddrs (40 + sumSizes (L.dropLast ++ [P]) + Bf.size) R) := by
          rw [hFAL, List.append_assoc] at hfr
          simpa using hfr
        have hnotin : (40 + sumSizes L.dropLast) ∉ freeAddrs 40 L.dropLast := by
          intro hmem
          have := lt_of_mem_freeAddrs hposL' hmem
          omega
        have h1 := perm_erase_mid hfr' hnotin
        unfold add_to_list remove_from_list
        have hFA' : freeAddrs 40
            (L.dropLast ++ (⟨Bf.size + P.size, false,
              freshData (Bf.size + P.size)⟩ : Block) :: R) =
            freeAddrs 40 L.dropLast ++ (40 + sumSizes L.dropLast) ::
              freeAddrs (40 + sumSizes (L.dropLast ++ [P]) + Bf.size) R := by
          rw [freeAddrs_append]
          have h40 : 40 + sumSizes L.dropLast + (Bf.size + P.size) =
              40 + sumSizes (L.dropLast ++ [P]) + Bf.size := by
            rw [hsumLP]; omega
          simp [freeAddrs, h40]
        rw [hFA']
        exact perm_insert_mid h1
      · show 40 + sumSizes _ ≤ cap
        simp only [sumSizes_append, sumSizes] at hcap ⊢
        omega
    | some N =>
      obtain ⟨hReq, hNfree⟩ := freeNbr_head?_some hNext
      rw [hReq] at hsz hchR hfr hcap ⊢
      rw [coalesce_case4 hposL hPfree hNfree, hpA]
      have hszN := hsz N
        (List.mem_append_right _ (List.mem_cons_of_mem _ (List.mem_cons_self _ _)))
      have hchR' := List.chain'_cons'.1 hchR
      refine ⟨?_, ?_, ?_, ?_, hW⟩
      · refine forall_mem_glue ?_ ?_ ?_
        · exact fun b hb => hsz b (List.mem_append_left _ (List.mem_append_left _ hb))
        · exact fun b hb => hsz b (List.mem_append_right _
            (List.mem_cons_of_mem _ (List.mem_cons_of_mem _ hb)))
        · constructor
          · dsimp only; omega
          · dsimp only
            rw [hds]
            have h1 := hszB.2
            have h2 := hszP.2
            have h3 := hszN.2
            rw [hds] at h1 h2 h3
            omega
      · refine chain'_glue hchSplit.1 hchR'.2
          (fun x hx => Or.inl (hlastL' x hx)) ?_
        intro y hy
        rcases hchR'.1 y hy with hN | hy'
        · rw [hNfree] at hN; cases hN
        · exact Or.inr hy'
      · have hfr' : fr.Perm (freeAddrs 40 L.dropLast ++ (40 + sumSizes L.dropLast) ::
            (40 + sumSizes (L.dropLast ++ [P]) + Bf.size) ::
              freeAddrs (40 + sumSizes (L.dropLast ++ [P]) + Bf.size + N.size) R.tail) := by
          rw [hFAL, List.append_assoc,
            show freeAddrs (40 + sumSizes (L.dropLast ++ [P]) + Bf.size) (N :: R.tail) =
              (40 + sumSizes (L.dropLast ++ [P]) + Bf.size) ::
                freeAddrs (40 + sumSizes (L.dropLast ++ [P]) + Bf.size + N.size) R.tail by
              simp [freeAddrs, hNfree]] at hfr
          simpa using hfr
        have hnotinp : (40 + sumSizes L.dropLast) ∉ freeAddrs 40 L.dropLast := by
          intro hmem
          have := lt_of_mem_freeAddrs hposL' hmem
          omega
        have hnotinn : (40 + sumSizes (L.dropLast ++ [P]) + Bf.size) ∉
            freeAddrs 40 L.dropLast := by
          intro hmem
          have := lt_of_mem_freeAddrs hposL' hmem
          omega
        have h1 := perm_erase_mid hfr' hnotinp
        have h2 := perm_erase_mid h1 hnotinn
        unfold add_to_list remove_from_list
        have hFA' : freeAddrs 40
            (L.dropLast ++ (⟨Bf.size + (N.size + P.size), false,
              freshData (Bf.size + (N.size + P.size))⟩ : Block) :: R.tail) =
            freeAddrs 40 L.dropLast ++ (40 + sumSizes L.dropLast) ::
              freeAddrs (40 + sumSizes (L.dropLast ++ [P]) + Bf.size + N.size) R.tail := by
          rw [freeAddrs_append]
          have h40 : 40 + sumSizes L.dropLast + (Bf.size + (N.size + P.size)) =
              40 + sumSizes (L.dropLast ++ [P]) + Bf.size + N.size := by
            rw [hsumLP]; omega
          simp [freeAddrs, h40]
        rw [hFA']
        exact perm_insert_mid h2
      · show 40 + sumSizes _ ≤ cap
        simp only [sumSizes_append, sumSizes] at hcap ⊢
        omega

theorem locateGo_sound : ∀ (l : List Block) (base a : Nat)
    (L : List Block) (B : Block) (R : List Block),
    locateGo a base l = some (L, B, R) → l = L ++ B :: R ∧ a = base + sumSizes L := by
  intro l
  induction l with
  | nil => intro base a L B R h; simp [locateGo] at h
  | cons b r ih =>
    intro base a L B R h
    unfold locateGo at h
    by_cases hba : base = a
    · rw [if_pos hba] at h
      obtain ⟨hL, hB, hR⟩ : [] = L ∧ b = B ∧ r = R := by
        simpa using h
      subst hL; subst hB; subst hR
      exact ⟨rfl, by simp [sumSizes, hba]⟩
    · rw [if_neg hba] at h
      cases hrec : locateGo a (base + b.size) r with
      | none => rw [hrec] at h; simp at h
      | some t =>
        obtain ⟨L', B', R'⟩ := t
        rw [hrec] at h
        obtain ⟨hL, hB, hR⟩ : b :: L' = L ∧ B' = B ∧ R' = R := by
          simpa using h
        subst hL; subst hB; subst hR
        obtain ⟨h1, h2⟩ := ih (base + b.size) a L' B' R' hrec
        constructor
        · simp [h1]
        · simp [sumSizes]; omega

theorem locate_sound {blocks : List Block} {a : Nat}
    {L : List Block} {B : Block} {R : List Block}
    (h : locate blocks a = some (L, B, R)) :
    blocks = L ++ B :: R ∧ a = 40 + sumSizes L :=
  locateGo_sound blocks 40 a L B R h

theorem extend_heap_none {s : State} {size : Nat}
    (h : s.cap < heapTop s + round_up size dsize) : extend_heap s size = none := by
  simp [extend_heap, h]

theorem extend_heap_some {s : State} {size : Nat}
    (h : ¬(s.cap < heapTop s + round_up size dsize)) :
    extend_heap s size = some
      ({ s with
         blocks := s.blocks ++
           [⟨round_up size dsize, false, freshData (round_up size dsize)⟩],
         free := add_to_list s.free (heapTop s) }, heapTop s) := by
  simp [extend_heap, h]

theorem round_up_eq_self {x : Nat} (hdvd : x % 16 = 0) (hx : x + 15 < W) :
    round_up x dsize = x := by
  rw [round_up_16 hx]
  omega

theorem mmFree_wf {s : State} {p : Nat} (hwf : Wf s) (hv : validPayloadPtr s p) :
    ∃ s', mmFree s p = Except.ok s' ∧ Wf s' := by
  unfold validPayloadPtr at hv
  cases hloc : locate s.blocks (payload_to_header p) with
  | none => rw [hloc] at hv; exact hv.elim
  | some t =>
    obtain ⟨L, B, R⟩ := t
    rw [hloc] at hv
    obtain ⟨hblocks, ha⟩ := locate_sound hloc
    unfold mmFree
    rw [hloc]
    refine ⟨_, rfl, ?_⟩
    rw [ha]
    have hsz0 := hwf.1
    have hch0 := hwf.2.1
    have hfr0 := hwf.2.2.1
    have hcap0 := hwf.2.2.2.1
    have hW0 := hwf.2.2.2.2
    rw [hblocks] at hsz0 hch0 hfr0
    unfold heapTop at hcap0
    rw [hblocks] at hcap0
    have hchL : List.Chain' nafP L := (List.chain'_append.1 hch0).1
    have hchBR : List.Chain' nafP (B :: R) := (List.chain'_append.1 hch0).2.1
    have hchR : List.Chain' nafP R := (List.chain'_cons'.1 hchBR).2
    have hszB := hsz0 B (List.mem_append_right _ (List.mem_cons_self _ _))
    show Wf (coalesce ⟨L ++ [⟨B.size, false, B.data⟩] ++ R, s.free, s.cap⟩
      (40 + sumSizes L))
    rw [List.append_assoc, List.singleton_append]
    refine coalesce_wf ?_ hchL hchR rfl ?_ ?_ hW0
    · refine forall_mem_glue ?_ ?_ ?_
      · exact fun b hb => hsz0 b (List.mem_append_left _ hb)
      · exact fun b hb => hsz0 b (List.mem_append_right _ (List.mem_cons_of_mem _ hb))
      · exact hszB
    · have hFA : freeAddrs 40 (L ++ B :: R) =
          freeAddrs 40 L ++ freeAddrs (40 + sumSizes L + B.size) R := by
        rw [freeAddrs_append]
        simp [freeAddrs, hv, Nat.add_assoc]
      rw [hFA] at hfr0
      exact hfr0
    · simp only [sumSizes_append, sumSizes] at hcap0 ⊢
      omega

theorem malloc_wf {s : State} {n : Nat} (hwf : Wf s) (hn : n + 32 ≤ W) :
    Wf (malloc s n).1 := by
  obtain ⟨blocks, fr, cap⟩ := s
  by_cases h0 : n = 0
  · simp [malloc, h0]
    exact hwf
  · have h1 : 1 ≤ n := Nat.one_le_iff_ne_zero.2 h0
    have hWe := W_eq
    have hmbs := min_block_size_eq
    have hsz : ∀ b ∈ blocks, min_block_size ≤ b.size ∧ b.size % dsize = 0 := hwf.1
    have hch : List.Chain' nafP blocks := hwf.2.1
    have hfr : fr.Perm (freeAddrs 40 blocks) := hwf.2.2.1
    have hcap : 40 + sumSizes blocks ≤ cap := hwf.2.2.2.1
    have hW0 : cap < W := hwf.2.2.2.2
    have hposB : ∀ b ∈ blocks, 0 < b.size := fun b hb => by
      have := (hsz b hb).1
      omega
    unfold malloc
    rw [if_neg h0]
    dsimp only
    set A := round_up ((n + dsize) % W) dsize with hA
    have hae : A = 16 * ((n + 31) / 16) := asize_eq hn
    have ha32 : 32 ≤ A := by rw [hae]; exact asize_ge h1
    have ha16 : A % 16 = 0 := by rw [hae]; simp [Nat.mul_mod_right]
    have haL : A ≤ n + 31 := by rw [hae]; exact asize_le
    cases hf : find_fit ⟨blocks, fr, cap⟩ A with
    | some a =>
      dsimp only
      have hf' : find_fitGo blocks A fr = some a := hf
      obtain ⟨hmem, hge⟩ := find_fitGo_mem hf'
      have hmemFA : a ∈ freeAddrs 40 blocks := hfr.mem_iff.1 hmem
      obtain ⟨L, B, R, hdec, haeq, hBfree⟩ := exists_decomp_of_mem_freeAddrs hmemFA
      subst hdec
      subst haeq
      have hposL : ∀ b ∈ L, 0 < b.size := fun b hb => hposB b (List.mem_append_left _ hb)
      have hloc : locate (L ++ B :: R) (40 + sumSizes L) = some (L, B, R) :=
        locate_eq B R hposL
      have hsa : sizeAt (L ++ B :: R) (40 + sumSizes L) = B.size := by
        unfold sizeAt
        rw [hloc]
      rw [hsa] at hge
      have hchL := (List.chain'_append.1 hch).1
      have hchBR := (List.chain'_append.1 hch).2.1
      have hchR := (List.chain'_cons'.1 hchBR).2
      have hheadR : ∀ y ∈ R.head?, y.alloc = true := by
        intro y hy
        rcases (List.chain'_cons'.1 hchBR).1 y hy with hB | hy'
        · rw [hBfree] at hB; cases hB
        · exact hy'
      exact place_wf hsz hchL hchR hheadR hBfree hge ha32 ha16 hfr hcap hW0
    | none =>
      dsimp only
      have hdvd : (max A chunksize) % 16 = 0 := by
        rcases max_choice A chunksize with hm | hm <;> rw [hm]
        · exact ha16
        · rw [chunksize_eq]
      have hmaxW : max A chunksize + 15 < W := by
        have h4 : chunksize = 4096 := chunksize_eq
        rcases max_choice A chunksize with hm | hm <;> rw [hm] <;> omega
      have hrueq : round_up (max A chunksize) dsize = max A chunksize :=
        round_up_eq_self hdvd hmaxW
      by_cases hcap2 : cap < 40 + sumSizes blocks + max A chunksize
      · have hnone : extend_heap ⟨blocks, fr, cap⟩ (max A chunksize) = none := by
          apply extend_heap_none
          show cap < 40 + sumSizes blocks + round_up (max A chunksize) dsize
          rw [hrueq]
          exact hcap2
        rw [hnone]
        exact hwf
      · have hnot : ¬((⟨blocks, fr, cap⟩ : State).cap <
            heapTop ⟨blocks, fr, cap⟩ + round_up (max A chunksize) dsize) := by
          show ¬(cap < 40 + sumSizes blocks + round_up (max A chunksize) dsize)
          rw [hrueq]
          omega
        rw [extend_heap_some hnot]
        dsimp only
        rw [hrueq]
        have hszN : min_block_size ≤ max A chunksize ∧ (max A chunksize) % dsize = 0 := by
          rw [min_block_size_eq, dsize_eq]
          exact ⟨le_trans ha32 (le_max_left _ _), hdvd⟩
        have hsz' : ∀ b ∈ blocks ++
            (⟨max A chunksize, false, freshData (max A chunksize)⟩ : Block) :: [],
            min_block_size ≤ b.size ∧ b.size % dsize = 0 :=
          forall_mem_glue hsz (by intro b hb; simp at hb) hszN
        have hfr' : (add_to_list fr (heapTop ⟨blocks, fr, cap⟩)).Perm
            (freeAddrs 40 (blocks ++
              (⟨max A chunksize, false, freshData (max A chunksize)⟩ : Block) :: [])) := by
          rw [freeAddrs_append]
          show (fr ++ [40 + sumSizes blocks]).Perm _
          simp only [freeAddrs]
          simp only [Bool.false_eq_true, if_false, List.append_nil]
          exact hfr.append_right _
        have hcap' : 40 + sumSizes (blocks ++
            (⟨max A chunksize, false, freshData (max A chunksize)⟩ : Block) :: []) ≤
            cap := by
          simp only [sumSizes_append, sumSizes]
          omega
        exact place_wf hsz' hch List.chain'_nil (by intro y hy; simp at hy) rfl
          (le_max_left _ _) ha32 ha16 hfr' hcap' hW0

/-- The structural shape of a block: its size and allocated flag. -/
def shape (b : Block) : Nat × Bool := (b.size, b.alloc)

theorem sumSizes_eq_of_shape : ∀ (l₁ l₂ : List Block),
    l₁.map shape = l₂.map shape → sumSizes l₁ = sumSizes l₂ := by
  intro l₁
  induction l₁ with
  | nil => intro l₂ h; cases l₂ <;> simp_all [sumSizes]
  | cons b r ih =>
    intro l₂ h
    cases l₂ with
    | nil => simp at h
    | cons c r' =>
      simp [shape] at h
      simp [sumSizes, h.1.1, ih r' h.2]

theorem freeAddrs_eq_of_shape : ∀ (l₁ l₂ : List Block) (base : Nat),
    l₁.map shape = l₂.map shape → freeAddrs base l₁ = freeAddrs base l₂ := by
  intro l₁
  induction l₁ with
  | nil => intro l₂ base h; cases l₂ <;> simp_all [freeAddrs]
  | cons b r ih =>
    intro l₂ base h
    cases l₂ with
    | nil => simp at h
    | cons c r' =>
      simp [shape] at h
      simp [freeAddrs, h.1.1, h.1.2, ih r' _ h.2]

theorem chain'_of_shape : ∀ (l₁ l₂ : List Block),
    l₁.map shape = l₂.map shape → List.Chain' nafP l₁ → List.Chain' nafP l₂ := by
  intro l₁
  induction l₁ with
  | nil => intro l₂ h _; cases l₂ <;> simp_all
  | cons b r ih =>
    intro l₂ h hch
    cases l₂ with
    | nil => exact List.chain'_nil
    | cons c r' =>
      simp [shape] at h
      have hch' := List.chain'_cons'.1 hch
      refine List.chain'_cons'.2 ⟨?_, ih r' h.2 hch'.2⟩
      intro y hy
      cases r' with
      | nil => simp at hy
      | cons d r'' =>
        simp at hy
        subst hy
        cases r with
        | nil => simp at h
        | cons e r₃ =>
          simp [shape] at h
          rcases hch'.1 e (by simp) with h1 | h1
          · exact Or.inl (by rw [← h.1.2]; exact h1)
          · exact Or.inr (by rw [← h.2.1.2]; exact h1)

theorem sizes_of_shape {l₁ l₂ : List Block}
    (h : l₁.map shape = l₂.map shape)
    (hs : ∀ b ∈ l₁, min_block_size ≤ b.size ∧ b.size % dsize = 0) :
    ∀ b ∈ l₂, min_block_size ≤ b.size ∧ b.size % dsize = 0 := by
  intro b hb
  have hmem : shape b ∈ l₂.map shape := List.mem_map_of_mem shape hb
  rw [← h] at hmem
  obtain ⟨c, hc, hcb⟩ := List.mem_map.1 hmem
  have := hs c hc
  unfold shape at hcb
  have h1 : c.size = b.size := congrArg Prod.fst hcb
  rw [h1] at this
  exact this

theorem wf_of_shape {s s' : State} (hfree : s'.free = s.free) (hcap : s'.cap = s.cap)
    (hshape : s'.blocks.map shape = s.blocks.map shape) (hwf : Wf s) : Wf s' := by
  refine ⟨sizes_of_shape hshape.symm hwf.1, chain'_of_shape _ _ hshape.symm hwf.2.1,
    ?_, ?_, ?_⟩
  · rw [hfree, freeAddrs_eq_of_shape _ _ 40 hshape]
    exact hwf.2.2.1
  · show 40 + sumSizes s'.blocks ≤ s'.cap
    rw [hcap, sumSizes_eq_of_shape _ _ hshape]
    exact hwf.2.2.2.1
  · rw [hcap]; exact hwf.2.2.2.2

theorem locateGo_shape : ∀ (l₁ l₂ : List Block) (base a : Nat)
    (L : List Block) (B : Block) (R : List Block),
    l₁.map shape = l₂.map shape → locateGo a base l₁ = some (L, B, R) →
    ∃ L' B' R', locateGo a base l₂ = some (L', B', R') ∧ shape B' = shape B := by
  intro l₁
  induction l₁ with
  | nil => intro l₂ base a L B R h hl; simp [locateGo] at hl
  | cons b r ih =>
    intro l₂ base a L B R h hl
    cases l₂ with
    | nil => simp at h
    | cons c r' =>
      simp [shape] at h
      unfold locateGo at hl ⊢
      by_cases hba : base = a
      · rw [if_pos hba] at hl ⊢
        refine ⟨[], c, r', rfl, ?_⟩
        obtain ⟨hL, hB, hR⟩ : [] = L ∧ b = B ∧ r = R := by simpa using hl
        subst hB
        simp [shape, h.1.1, h.1.2]
      · rw [if_neg hba] at hl ⊢
        cases hrec : locateGo a (base + b.size) r with
        | none => rw [hrec] at hl; simp at hl
        | some t =>
          obtain ⟨L₁, B₁, R₁⟩ := t
          rw [hrec] at hl
          obtain ⟨hL, hB, hR⟩ : b :: L₁ = L ∧ B₁ = B ∧ R₁ = R := by simpa using hl
          subst hB
          obtain ⟨L', B', R', hl2, hsh⟩ := ih r' (base + b.size) a L₁ B₁ R₁ h.2 hrec
          rw [h.1.1] at hl2
          rw [hl2]
          exact ⟨c :: L', B', R', rfl, hsh⟩

theorem validPayloadPtr_of_shape {s s' : State} {p : Nat}
    (hshape : s'.blocks.map shape = s.blocks.map shape)
    (hv : validPayloadPtr s p) : validPayloadPtr s' p := by
  unfold validPayloadPtr at hv ⊢
  cases hloc : locate s.blocks (payload_to_header p) with
  | none => rw [hloc] at hv; exact hv.elim
  | some t =>
    obtain ⟨L, B, R⟩ := t
    rw [hloc] at hv
    obtain ⟨L', B', R', hl2, hsh⟩ :=
      locateGo_shape s.blocks s'.blocks 40 (payload_to_header p) L B R hshape.symm hloc
    rw [show locate s'.blocks (payload_to_header p) = some (L', B', R') from hl2]
    show B'.alloc = true
    have hv' : B.alloc = true := hv
    have h2 : B'.alloc = B.alloc := congrArg Prod.snd hsh
    rw [h2]
    exact hv'

theorem memcpyInto_shape (s : State) (p : Nat) (bytes : List Nat) :
    (memcpyInto s p bytes).blocks.map shape = s.blocks.map shape ∧
    (memcpyInto s p bytes).free = s.free ∧ (memcpyInto s p bytes).cap = s.cap := by
  unfold memcpyInto
  cases hloc : locate s.blocks (payload_to_header p) with
  | none => exact ⟨rfl, rfl, rfl⟩
  | some t =>
    obtain ⟨L, B, R⟩ := t
    obtain ⟨hdec, _⟩ := locate_sound hloc
    refine ⟨?_, rfl, rfl⟩
    rw [hdec]
    simp [shape]

/-- The address-to-block view of the physical chain. -/
def blockMap (base : Nat) : List Block → List (Nat × Block)
  | [] => []
  | b :: r => (base, b) :: blockMap (base + b.size) r

theorem blockMap_append (base : Nat) (l₁ l₂ : List Block) :
    blockMap base (l₁ ++ l₂) =
      blockMap base l₁ ++ blockMap (base + sumSizes l₁) l₂ := by
  induction l₁ generalizing base with
  | nil => simp [blockMap, sumSizes]
  | cons b r ih => simp [blockMap, sumSizes, ih, Nat.add_assoc]

theorem mem_blockMap_decomp {a base : Nat} {B : Block} {l : List Block}
    (h : (a, B) ∈ blockMap base l) :
    ∃ L R, l = L ++ B :: R ∧ a = base + sumSizes L := by
  induction l generalizing base with
  | nil => simp [blockMap] at h
  | cons b r ih =>
    rcases List.mem_cons.1 h with heq | h
    · injection heq with h1 h2
      subst h1
      subst h2
      exact ⟨[], r, rfl, by simp [sumSizes]⟩
    · obtain ⟨L, R, h1, h2⟩ := ih h
      exact ⟨b :: L, R, by simp [h1], by simp [sumSizes]; omega⟩

theorem decomp_mem_blockMap (base : Nat) (L : List Block) (B : Block) (R : List Block) :
    (base + sumSizes L, B) ∈ blockMap base (L ++ B :: R) := by
  rw [blockMap_append]
  exact List.mem_append_right _ (List.mem_cons_self _ _)

theorem mem_blockMap_append_right {x : Nat × Block} {base : Nat} {Y R : List Block}
    {c : Nat} (hc : c = base + sumSizes Y) (hx : x ∈ blockMap c R) :
    x ∈ blockMap base (Y ++ R) := by
  rw [blockMap_append]
  exact List.mem_append_right _ (hc ▸ hx)

theorem malloc_keeps_pair {s : State} {n : Nat} (hwf : Wf s) (hn : n + 32 ≤ W) :
    ∀ x ∈ blockMap 40 s.blocks, x.2.alloc = true →
      x ∈ blockMap 40 (malloc s n).1.blocks := by
  obtain ⟨blocks, fr, cap⟩ := s
  intro x hx hxa
  by_cases h0 : n = 0
  · simpa [malloc, h0] using hx
  · have h1 : 1 ≤ n := Nat.one_le_iff_ne_zero.2 h0
    have hWe := W_eq
    have hmbs := min_block_size_eq
    have hsz : ∀ b ∈ blocks, min_block_size ≤ b.size ∧ b.size % dsize = 0 := hwf.1
    have hfr : fr.Perm (freeAddrs 40 blocks) := hwf.2.2.1
    have hcap : 40 + sumSizes blocks ≤ cap := hwf.2.2.2.1
    have hW0 : cap < W := hwf.2.2.2.2
    have hposB : ∀ b ∈ blocks, 0 < b.size := fun b hb => by
      have := (hsz b hb).1
      omega
    unfold malloc
    rw [if_neg h0]
    dsimp only
    set A := round_up ((n + dsize) % W) dsize with hA
    have hae : A = 16 * ((n + 31) / 16) := asize_eq hn
    have ha32 : 32 ≤ A := by rw [hae]; exact asize_ge h1
    have ha16 : A % 16 = 0 := by rw [hae]; simp [Nat.mul_mod_right]
    have haL : A ≤ n + 31 := by rw [hae]; exact asize_le
    cases hf : find_fit ⟨blocks, fr, cap⟩ A with
    | some a =>
      dsimp only
      have hf' : find_fitGo blocks A fr = some a := hf
      obtain ⟨hmem, hge⟩ := find_fitGo_mem hf'
      have hmemFA : a ∈ freeAddrs 40 blocks := hfr.mem_iff.1 hmem
      obtain ⟨L, F, R, hdec, haeq, hFfree⟩ := exists_decomp_of_mem_freeAddrs hmemFA
      subst hdec
      subst haeq
      have hposL : ∀ b ∈ L, 0 < b.size := fun b hb => hposB b (List.mem_append_left _ hb)
      have hloc : locate (L ++ F :: R) (40 + sumSizes L) = some (L, F, R) :=
        locate_eq F R hposL
      have hsa : sizeAt (L ++ F :: R) (40 + sumSizes L) = F.size := by
        unfold sizeAt
        rw [hloc]
      rw [hsa] at hge
      have hFlt : F.size < W :=
        wf_size_lt_W hwf F (List.mem_append_right _ (List.mem_cons_self _ _))
      rw [place_eq hposL hge hFlt]
      rw [blockMap_append] at hx
      rcases List.mem_append.1 hx with hxL | hxFR
      · by_cases hc : min_block_size ≤ F.size - A
        · rw [if_pos hc]
          dsimp only
          rw [blockMap_append]
          exact List.mem_append_left _ hxL
        · rw [if_neg hc]
          dsimp only
          rw [blockMap_append]
          exact List.mem_append_left _ hxL
      · rw [show blockMap (40 + sumSizes L) (F :: R) =
            (40 + sumSizes L, F) :: blockMap (40 + sumSizes L + F.size) R from rfl] at hxFR
        rcases List.mem_cons.1 hxFR with hxF | hxR
        · subst hxF
          dsimp only at hxa
          rw [hFfree] at hxa
          cases hxa
        · by_cases hc : min_block_size ≤ F.size - A
          · rw [if_pos hc]
            dsimp only
            rw [blockMap_append]
            refine List.mem_append_right _ ?_
            refine List.mem_cons_of_mem _ (List.mem_cons_of_mem _ ?_)
            dsimp only
            rw [show 40 + sumSizes L + A + (F.size - A) = 40 + sumSizes L + F.size by
              omega]
            exact hxR
          · rw [if_neg hc]
            dsimp only
            rw [blockMap_append]
            refine List.mem_append_right _ ?_
            refine List.mem_cons_of_mem _ ?_
            dsimp only
            exact hxR
    | none =>
      dsimp only
      have hdvd : (max A chunksize) % 16 = 0 := by
        rcases max_choice A chunksize with hm | hm <;> rw [hm]
        · exact ha16
        · rw [chunksize_eq]
      have hmaxW : max A chunksize + 15 < W := by
        have h4 : chunksize = 4096 := chunksize_eq
        rcases max_choice A chunksize with hm | hm <;> rw [hm] <;> omega
      have hrueq : round_up (max A chunksize) dsize = max A chunksize :=
        round_up_eq_self hdvd hmaxW
      by_cases hcap2 : cap < 40 + sumSizes blocks + max A chunksize
      · have hnone : extend_heap ⟨blocks, fr, cap⟩ (max A chunksize) = none := by
          apply extend_heap_none
          show cap < 40 + sumSizes blocks + round_up (max A chunksize) dsize
          rw [hrueq]
          exact hcap2
        rw [hnone]
        exact hx
      · have hnot : ¬((⟨blocks, fr, cap⟩ : State).cap <
            heapTop ⟨blocks, fr, cap⟩ + round_up (max A chunksize) dsize) := by
          show ¬(cap < 40 + sumSizes blocks + round_up (max A chunksize) dsize)
          rw [hrueq]
          omega
        rw [extend_heap_some hnot]
        dsimp only
        rw [hrueq]
        rw [show heapTop ⟨blocks, fr, cap⟩ = 40 + sumSizes blocks from rfl]
        rw [place_eq hposB (by dsimp only; exact le_max_left _ _)
          (by dsimp only; omega)]
        by_cases hc : min_block_size ≤
            (⟨max A chunksize, false, freshData (max A chunksize)⟩ : Block).size - A
        · rw [if_pos hc]
          dsimp only
          rw [blockMap_append]
          exact List.mem_append_left _ hx
        · rw [if_neg hc]
          dsimp only
          rw [blockMap_append]
          exact List.mem_append_left _ hx

theorem malloc_keeps_alloc {s : State} {n p : Nat}
    (hwf : Wf s) (hn : n + 32 ≤ W) (hv : validPayloadPtr s p) :
    validPayloadPtr (malloc s n).1 p := by
  have hwf' := malloc_wf hwf hn
  unfold validPayloadPtr at hv
  cases hloc : locate s.blocks (payload_to_header p) with
  | none => rw [hloc] at hv; exact hv.elim
  | some t =>
    obtain ⟨L₀, old, R₀⟩ := t
    rw [hloc] at hv
    have hv' : old.alloc = true := hv
    obtain ⟨hdec₀, ha₀⟩ := locate_sound hloc
    have hmem₀ : (payload_to_header p, old) ∈ blockMap 40 s.blocks := by
      rw [hdec₀, ha₀]
      exact decomp_mem_blockMap _ _ _ _
    have hmem := malloc_keeps_pair hwf hn _ hmem₀ hv'
    obtain ⟨L', R', hdec', ha'⟩ := mem_blockMap_decomp hmem
    unfold validPayloadPtr
    have hpos' : ∀ b ∈ L', 0 < b.size := fun b hb =>
      wf_pos hwf' b (by rw [hdec']; exact List.mem_append_left _ hb)
    rw [show locate (malloc s n).1.blocks (payload_to_header p) =
        some (L', old, R') from by rw [hdec', ha']; exact locate_eq old R' hpos']
    exact hv'

theorem malloc_none {s : State} {n : Nat} (h : (malloc s n).2 = none) :
    malloc s n = (s, none) := by
  unfold malloc at h ⊢
  by_cases h0 : n = 0
  · rw [if_pos h0]
  · rw [if_neg h0] at h ⊢
    dsimp only at h ⊢
    cases hf : find_fit s (round_up ((n + dsize) % W) dsize) with
    | some a =>
      rw [hf] at h
      exact Option.noConfusion h
    | none =>
      rw [hf] at h
      cases he : extend_heap s (max (round_up ((n + dsize) % W) dsize) chunksize) with
      | none => rfl
      | some t =>
        obtain ⟨s1, b⟩ := t
        rw [he] at h
        exact Option.noConfusion h

theorem mmFree_null_error {s : State} (hwf : Wf s) : mmFree s 0 = Except.error () := by
  unfold mmFree
  cases hloc : locate s.blocks (payload_to_header 0) with
  | none => rfl
  | some t =>
    obtain ⟨L, B, R⟩ := t
    obtain ⟨hdec, ha⟩ := locate_sound hloc
    exfalso
    have hWe := W_eq
    have hmbs := min_block_size_eq
    have hBmem : B ∈ s.blocks := by
      rw [hdec]
      exact List.mem_append_right _ (List.mem_cons_self _ _)
    have hB := (hwf.1 B hBmem).1
    have hcap := hwf.2.2.2.1
    have hW0 := hwf.2.2.2.2
    unfold heapTop at hcap
    rw [hdec, sumSizes_append] at hcap
    simp only [sumSizes] at hcap
    have hp : payload_to_header 0 = W - 8 := by
      unfold payload_to_header
      rw [Nat.zero_add, Nat.mod_eq_of_lt (by omega)]
    rw [hp] at ha
    omega

theorem realloc_wf {s : State} {p n : Nat} (hwf : Wf s)
    (hn : n + 32 ≤ W) (hvp : p ≠ 0 → validPayloadPtr s p)
    {s' : State} {r : Option Nat}
    (h : realloc s p n = Except.ok (s', r)) : Wf s' := by
  unfold realloc at h
  by_cases h0 : n = 0
  · rw [if_pos h0] at h
    by_cases hp0 : p = 0
    · rw [hp0, mmFree_null_error hwf] at h
      simp [Except.map] at h
    · obtain ⟨s1, hok, hwf1⟩ := mmFree_wf hwf (hvp hp0)
      rw [hok] at h
      simp [Except.map] at h
      rw [← h.1]
      exact hwf1
  · rw [if_neg h0] at h
    by_cases hp0 : p = 0
    · rw [if_pos hp0] at h
      simp at h
      have hwfm := malloc_wf hwf hn
      rw [h] at hwfm
      exact hwfm
    · rw [if_neg hp0] at h
      dsimp only at h
      cases hres : (malloc s n).2 with
      | none =>
        rw [hres] at h
        simp at h
        rw [← h.1]
        exact malloc_wf hwf hn
      | some np =>
        rw [hres] at h
        cases hloc : locate (malloc s n).1.blocks (payload_to_header p) with
        | none => rw [hloc] at h; simp at h
        | some t =>
          obtain ⟨L1, old, R1⟩ := t
          rw [hloc] at h
          dsimp only at h
          have hwf1 := malloc_wf hwf hn
          have hv1 : validPayloadPtr (malloc s n).1 p :=
            malloc_keeps_alloc hwf hn (hvp hp0)
          have hsh := memcpyInto_shape (malloc s n).1 np
            (old.data.take (if n < get_payload_size old then n else get_payload_size old))
          have hwf2 := wf_of_shape hsh.2.1 hsh.2.2 hsh.1 hwf1
          have hv2 := validPayloadPtr_of_shape hsh.1 hv1
          obtain ⟨s3, hok3, hwf3⟩ := mmFree_wf hwf2 hv2
          rw [hok3] at h
          simp [Except.map] at h
          rw [← h.1]
          exact hwf3

theorem calloc_wf {s : State} {a b : Nat} (hwf : Wf s) (hab : a * b + 32 ≤ W)
    {s' : State} {r : Option Nat}
    (h : calloc s a b = Except.ok (s', r)) : Wf s' := by
  unfold calloc at h
  by_cases ha0 : a = 0
  · rw [if_pos ha0] at h
    simp at h
  · rw [if_neg ha0] at h
    dsimp only at h
    have hasz : (a * b) % W = a * b := Nat.mod_eq_of_lt (by omega)
    have hb : (a * b) % W + 32 ≤ W := by omega
    by_cases hg : (a * b) % W / a ≠ b
    · rw [if_pos hg] at h
      simp at h
      rw [← h.1]
      exact hwf
    · rw [if_neg hg] at h
      cases hres : (malloc s ((a * b) % W)).2 with
      | none =>
        rw [hres] at h
        simp at h
        rw [← h.1]
        exact malloc_wf hwf hb
      | some bp =>
        rw [hres] at h
        simp at h
        have hwf1 := malloc_wf hwf hb
        have hsh := memcpyInto_shape (malloc s ((a * b) % W)).1 bp
          (List.replicate ((a * b) % W) 0)
        have hwf2 := wf_of_shape hsh.2.1 hsh.2.2 hsh.1 hwf1
        rw [← h.1]
        exact hwf2

theorem applyOp_wf {op : Op} {s s' : State} {r : Option Nat}
    (hwf : Wf s) (hok : OpOK op s) (h : applyOp op s = Except.ok (s', r)) : Wf s' := by
  cases op with
  | allocOp n =>
    simp [applyOp] at h
    have hwfm := malloc_wf hwf hok
    rw [h] at hwfm
    exact hwfm
  | freeOp p =>
    obtain ⟨s1, hok1, hwf1⟩ := mmFree_wf hwf hok
    simp [applyOp, hok1, Except.map] at h
    rw [← h.1]
    exact hwf1
  | reallocOp p n => exact realloc_wf hwf hok.1 hok.2 h
  | callocOp a b => exact calloc_wf hwf hok h

/-- C3 counterexample: the claim says allocated blocks carry no footer,
but write_block on a non-root block with the allocated flag set writes
the footer word (here overwriting the old footer 7 with pack 32 true),
and that footer duplicates the header. -/
theorem claim_C3_counterexample :
    (write_block false ⟨0, 7⟩ 32 true).ftr ≠ 7 ∧
    (write_block false ⟨0, 7⟩ 32 true).ftr = (write_block false ⟨0, 7⟩ 32 true).hdr := by
  decide

/-- C3 (amended): write_block writes, for every block other than the
free-list root sentinel, a footer word duplicating the header's
(size, allocated) encoding — for allocated blocks just as for free ones;
only the root sentinel's footer is left untouched. -/
theorem claim_C3 : ∀ (w : BlockWords) (size : Nat) (is_allocated : Bool),
    (write_block false w size is_allocated).hdr = pack size is_allocated ∧
    (write_block false w size is_allocated).ftr = pack size is_allocated ∧
    (write_block true w size is_allocated).hdr = pack size is_allocated ∧
    (write_block true w size is_allocated).ftr = w.ftr := by
  intro w size is_allocated
  unfold write_block
  exact ⟨rfl, rfl, rfl, rfl⟩

/-- C9: calloc divides the wrapped product by the element count with no
zero test first, so count = 0 reaches the division by zero asize / 0 —
undefined behaviour, modelled as the error result — instead of returning
any value; the guard is well-defined only under the precondition
count ≠ 0. -/
theorem claim_C9 : ∀ (s : State) (elem_size : Nat),
    calloc s 0 elem_size = Except.error () := by
  intro s elem_size
  rfl

/-- C10: realloc tests new_size == 0 before testing the pointer for
null, so realloc(null, 0) calls free(null), which recovers a header
address from the null payload pointer and dereferences a word that is no
block header — undefined behaviour, modelled as the error result; the
malloc-equivalence for a null pointer holds only for new_size > 0. -/
theorem claim_C10 : ∀ s : State, Wf s →
    realloc s 0 0 = Except.error () ∧
    ∀ n, 0 < n → realloc s 0 n = Except.ok (malloc s n) := by
  intro s hwf
  constructor
  · unfold realloc
    rw [if_pos rfl, mmFree_null_error hwf]
    rfl
  · intro n hn
    unfold realloc
    rw [if_neg (by omega), if_pos rfl]

/-- C10 witness at a concrete well-formed state. -/
theorem claim_C10_witness :
    Wf exampleInit ∧ (0 : Nat) < 3 ∧
    realloc exampleInit 0 0 = Except.error () ∧
    realloc exampleInit 0 3 = Except.ok (malloc exampleInit 3) :=
  ⟨by decide, by decide, (claim_C10 exampleInit (by decide)).1,
   (claim_C10 exampleInit (by decide)).2 3 (by decide)⟩

/-- C6: when the fresh allocation inside realloc fails, realloc returns
a null result and the state — every block's size, allocated flag and
payload bytes, the free list and the heap bounds — is exactly the
pre-call state, so the original block is byte-for-byte untouched. -/
theorem claim_C6 : ∀ (s : State) (p n : Nat), 0 < n → p ≠ 0 →
    (malloc s n).2 = none →
    realloc s p n = Except.ok (s, none) := by
  intro s p n hn hp h
  unfold realloc
  rw [if_neg (by omega), if_neg hp]
  dsimp only
  rw [malloc_none h]

/-- C6 witness: on a heap with no free block and no room to grow, the
inner malloc fails and realloc of the live block at payload 48 returns
null leaving the state unchanged. -/
theorem claim_C6_witness :
    (0 : Nat) < 1 ∧ (48 : Nat) ≠ 0 ∧ (malloc exampleExhausted 1).2 = none ∧
    realloc exampleExhausted 48 1 = Except.ok (exampleExhausted, none) :=
  ⟨by decide, by decide, by decide,
   claim_C6 exampleExhausted 48 1 (by decide) (by decide) (by decide)⟩

/-- C7: the overflow guard (count * elem_size) / count != elem_size,
computed modulo 2 ^ 64, holds exactly when the product overflows the
size type; on overflow calloc returns a null result with the state
unchanged and no allocation or heap growth attempted; in particular
zero_allocate(SIZE_MAX, 2) fails with a null result. -/
theorem claim_C7 :
    (∀ e sz : Nat, e ≠ 0 → ((e * sz) % W / e ≠ sz ↔ W ≤ e * sz)) ∧
    (∀ (s : State) (e sz : Nat), e ≠ 0 → W ≤ e * sz →
      calloc s e sz = Except.ok (s, none)) ∧
    (∀ s : State, calloc s (W - 1) 2 = Except.ok (s, none)) := by
  have hiff : ∀ e sz : Nat, e ≠ 0 → ((e * sz) % W / e ≠ sz ↔ W ≤ e * sz) := by
    intro e sz he
    have hW : 0 < W := by rw [W_eq]; omega
    constructor
    · intro h
      by_contra h2
      push_neg at h2
      exact h (by rw [Nat.mod_eq_of_lt h2, Nat.mul_div_cancel_left sz
        (Nat.pos_of_ne_zero he)])
    · intro h hEq
      have hmod : (e * sz) % W < W := Nat.mod_lt _ hW
      have hlt : (e * sz) % W < sz * e := by
        have hcomm : sz * e = e * sz := Nat.mul_comm sz e
        omega
      have := (Nat.div_lt_iff_lt_mul (Nat.pos_of_ne_zero he)).2 hlt
      omega
  have hcall : ∀ (s : State) (e sz : Nat), e ≠ 0 → W ≤ e * sz →
      calloc s e sz = Except.ok (s, none) := by
    intro s e sz he hov
    unfold calloc
    rw [if_neg he, if_pos ((hiff e sz he).2 hov)]
  refine ⟨hiff, hcall, ?_⟩
  intro s
  refine hcall s (W - 1) 2 (by rw [W_eq]; omega) ?_
  rw [W_eq]
  omega

/-- C7 witness at a concrete state: the SIZE_MAX case fires the guard,
and the overflow-iff instance holds at SIZE_MAX and 2. -/
theorem claim_C7_witness :
    ((W - 1) * 2 % W / (W - 1) ≠ 2 ↔ W ≤ (W - 1) * 2) ∧
    calloc exampleInit (W - 1) 2 = Except.ok (exampleInit, none) :=
  ⟨claim_C7.1 (W - 1) 2 (by rw [W_eq]; omega), claim_C7.2.2 exampleInit⟩

/-- C8: the heap checker is meant to flag an adjacent-free-blocks
violation only when two physically consecutive blocks are both free, but
the source tests (!curr_alloc || !next_alloc), so it reports the
violation whenever either block of a pair is free: on a chain
allocated-free-allocated, every invariant the specification lists holds,
yet mm_checkheap returns false.  (The walk's start pointer
prologue + 5 * wsize is also off — word rather than byte arithmetic —
see the model's comment.) -/
theorem claim_C8 :
    mm_checkheap exampleCheckheapInput = false ∧
    specHeapInvariants 40 exampleCheckheapInput = true := by
  decide

theorem sumSizes_mod {l : List Block} (h : ∀ b ∈ l, b.size % 16 = 0) :
    sumSizes l % 16 = 0 := by
  induction l with
  | nil => simp [sumSizes]
  | cons b r ih =>
    have h1 := h b (List.mem_cons_self _ _)
    have h2 := ih (fun b' hb' => h b' (List.mem_cons_of_mem _ hb'))
    simp only [sumSizes]
    omega

theorem extend_heap_inv {s : State} {size : Nat} {s1 : State} {b : Nat}
    (h : extend_heap s size = some (s1, b)) :
    b = heapTop s ∧
    s1.blocks = s.blocks ++
      [⟨round_up size dsize, false, freshData (round_up size dsize)⟩] ∧
    s1.free = s.free ++ [heapTop s] ∧ s1.cap = s.cap := by
  unfold extend_heap at h
  dsimp only at h
  by_cases hc : s.cap < heapTop s + round_up size dsize
  · rw [if_pos hc] at h
    exact Option.noConfusion h
  · rw [if_neg hc] at h
    have h' := Option.some.inj h
    have hb : b = heapTop s := (congrArg Prod.snd h').symm
    have hs : s1 = { s with
        blocks := s.blocks ++
          [⟨round_up size dsize, false, freshData (round_up size dsize)⟩],
        free := add_to_list s.free (heapTop s) } := (congrArg Prod.fst h').symm
    subst hs
    exact ⟨hb, rfl, rfl, rfl⟩

/-- C2: every successful allocation returns a payload address that is a
multiple of the 16-byte alignment (block addresses sit at 40 plus a sum
of block sizes, all multiples of 16, and the payload is 8 bytes past the
header, so payloads land on multiples of 16), and the source's own
aligned predicate accepts it. -/
theorem claim_C2 : ∀ (s : State) (n p : Nat), Wf s → (malloc s n).2 = some p →
    p % ALIGNMENT = 0 ∧ aligned p = true := by
  intro s n p hwf h
  suffices hp : p % 16 = 0 by
    refine ⟨hp, ?_⟩
    have halign : align p = p := by
      unfold align
      rw [show ALIGNMENT = 16 from rfl]
      omega
    unfold aligned
    rw [halign]
    simp
  obtain ⟨blocks, fr, cap⟩ := s
  have hsz : ∀ b ∈ blocks, min_block_size ≤ b.size ∧ b.size % dsize = 0 := hwf.1
  have hfr : fr.Perm (freeAddrs 40 blocks) := hwf.2.2.1
  have hsz16 : ∀ b ∈ blocks, b.size % 16 = 0 := fun b hb => by
    have := (hsz b hb).2
    rw [dsize_eq] at this
    exact this
  unfold malloc at h
  by_cases h0 : n = 0
  · rw [if_pos h0] at h
    exact Option.noConfusion h
  · rw [if_neg h0] at h
    dsimp only at h
    cases hf : find_fit ⟨blocks, fr, cap⟩ (round_up ((n + dsize) % W) dsize) with
    | some a =>
      rw [hf] at h
      have hp := Option.some.inj h
      have hmem := (find_fitGo_mem
        (show find_fitGo blocks (round_up ((n + dsize) % W) dsize) fr = some a
          from hf)).1
      have hmemFA : a ∈ freeAddrs 40 blocks := hfr.mem_iff.1 hmem
      obtain ⟨L, B, R, hdec, haeq, _⟩ := exists_decomp_of_mem_freeAddrs hmemFA
      have hL16 : sumSizes L % 16 = 0 := sumSizes_mod
        (fun b hb => hsz16 b (by rw [hdec]; exact List.mem_append_left _ hb))
      omega
    | none =>
      rw [hf] at h
      cases he : extend_heap ⟨blocks, fr, cap⟩
          (max (round_up ((n + dsize) % W) dsize) chunksize) with
      | none =>
        rw [he] at h
        exact Option.noConfusion h
      | some t =>
        obtain ⟨s1, b⟩ := t
        rw [he] at h
        have hp := Option.some.inj h
        have hb := (extend_heap_inv he).1
        rw [show heapTop ⟨blocks, fr, cap⟩ = 40 + sumSizes blocks from rfl] at hb
        have hS : sumSizes blocks % 16 = 0 := sumSizes_mod hsz16
        omega

/-- C2 witness: allocating from the initial heap returns payload 48,
which is 16-aligned. -/
theorem claim_C2_witness :
    Wf exampleInit ∧ (malloc exampleInit 1).2 = some 48 ∧
    (48 % ALIGNMENT = 0 ∧ aligned 48 = true) :=
  ⟨by decide, by decide, claim_C2 exampleInit 1 48 (by decide) (by decide)⟩

theorem wf_free_sizeAt {s : State} (hwf : Wf s) :
    ∀ a ∈ s.free, 32 ≤ sizeAt s.blocks a := by
  intro a ha
  have hmemFA : a ∈ freeAddrs 40 s.blocks := hwf.2.2.1.mem_iff.1 ha
  obtain ⟨L, B, R, hdec, haeq, hBfree⟩ := exists_decomp_of_mem_freeAddrs hmemFA
  have hposL : ∀ b ∈ L, 0 < b.size := fun b hb =>
    wf_pos hwf b (by rw [hdec]; exact List.mem_append_left _ hb)
  have hloc : locate s.blocks a = some (L, B, R) := by
    rw [hdec, haeq]
    exact locate_eq B R hposL
  have hBmem : B ∈ s.blocks := by
    rw [hdec]
    exact List.mem_append_right _ (List.mem_cons_self _ _)
  have hB := (hwf.1 B hBmem).1
  rw [min_block_size_eq] at hB
  unfold sizeAt
  rw [hloc]
  show 32 ≤ B.size
  exact hB

/-- C4: find_fit scans the free list in order from the sentinel's first
successor and returns the first (earliest-inserted, since add_to_list
appends at the tail so list order is insertion order) block whose size
is at least the adjusted size, and null exactly when no free block
qualifies. -/
theorem claim_C4 : ∀ (s : State) (asize : Nat), Wf s →
    (∀ (fl : List Nat) (b : Nat), add_to_list fl b = fl ++ [b]) ∧
    (find_fit s asize = none ↔ ∀ a ∈ s.free, sizeAt s.blocks a < asize) ∧
    (∀ a, find_fit s asize = some a →
      a ∈ s.free ∧ asize ≤ sizeAt s.blocks a ∧
      ∃ l r, s.free = l ++ a :: r ∧ ∀ x ∈ l, sizeAt s.blocks x < asize) := by
  intro s asize hwf
  have hnz : ∀ x ∈ s.free, sizeAt s.blocks x ≠ 0 := fun x hx => by
    have := wf_free_sizeAt hwf x hx
    omega
  refine ⟨fun fl b => rfl, find_fitGo_none_iff hnz, ?_⟩
  intro a hf
  obtain ⟨hm, hs⟩ := find_fitGo_mem hf
  exact ⟨hm, hs, find_fitGo_first hnz hf⟩

/-- C4 witness: with free-list order [120, 40], a request of 33 bytes is
served by the earliest-inserted qualifying block 120 (size 64), even
though block 40 (size 32, not qualifying) is earlier in address order:
the prefix before the hit consists of non-qualifying blocks only. -/
theorem claim_C4_witness :
    Wf exampleTwoFree ∧ find_fit exampleTwoFree 33 = some 120 ∧
    (120 ∈ exampleTwoFree.free ∧ 33 ≤ sizeAt exampleTwoFree.blocks 120 ∧
      ∃ l r, exampleTwoFree.free = l ++ 120 :: r ∧
        ∀ x ∈ l, sizeAt exampleTwoFree.blocks x < 33) :=
  ⟨by decide, by decide, (claim_C4 exampleTwoFree 33 (by decide)).2.2 120 (by decide)⟩

/-- C5: the four coalescing cases, as the source computes them.  When
both physical neighbours are free (case 4) coalesce removes both from
the free list, writes a merged free block at the previous block's
address whose size is the sum of the three sizes, and appends the merged
block's address to the free list; when only one neighbour is free it
merges with that neighbour alone (cases 2 and 3), and when both are
allocated it inserts the block alone (case 1).  The second conjunct
states the insert-exactly-once accounting: on a duplicate-free free
list the merged address ends up with multiplicity one and the removed
neighbour with multiplicity zero. -/
theorem claim_C5 :
    (∀ (L' : List Block) (P B N : Block) (R' : List Block) (fr : List Nat) (cap : Nat),
      (∀ b ∈ L' ++ [P], 0 < b.size) → P.alloc = false → N.alloc = false →
      coalesce ⟨(L' ++ [P]) ++ B :: N :: R', fr, cap⟩ (40 + sumSizes (L' ++ [P])) =
        ⟨L' ++ ⟨B.size + (N.size + P.size), false,
            freshData (B.size + (N.size + P.size))⟩ :: R',
         add_to_list (remove_from_list
             (remove_from_list fr (40 + sumSizes (L' ++ [P]) - P.size))
             (40 + sumSizes (L' ++ [P]) + B.size))
           (40 + sumSizes (L' ++ [P]) - P.size), cap⟩) ∧
    (∀ (fr : List Nat) (pA nA : Nat), fr.Nodup → pA ∈ fr → nA ∈ fr → pA ≠ nA →
      (add_to_list (remove_from_list (remove_from_list fr pA) nA) pA).count pA = 1 ∧
      (add_to_list (remove_from_list (remove_from_list fr pA) nA) pA).count nA = 0) ∧
    (∀ (L : List Block) (B N : Block) (R' : List Block) (fr : List Nat) (cap : Nat),
      (∀ b ∈ L, 0 < b.size) → freeNbr L.getLast? = none → N.alloc = false →
      coalesce ⟨L ++ B :: N :: R', fr, cap⟩ (40 + sumSizes L) =
        ⟨L ++ ⟨B.size + N.size, false, freshData (B.size + N.size)⟩ :: R',
         add_to_list (remove_from_list fr (40 + sumSizes L + B.size))
           (40 + sumSizes L), cap⟩) ∧
    (∀ (L' : List Block) (P B : Block) (R : List Block) (fr : List Nat) (cap : Nat),
      (∀ b ∈ L' ++ [P], 0 < b.size) → P.alloc = false → freeNbr R.head? = none →
      coalesce ⟨(L' ++ [P]) ++ B :: R, fr, cap⟩ (40 + sumSizes (L' ++ [P])) =
        ⟨L' ++ ⟨B.size + P.size, false, freshData (B.size + P.size)⟩ :: R,
         add_to_list (remove_from_list fr (40 + sumSizes (L' ++ [P]) - P.size))
           (40 + sumSizes (L' ++ [P]) - P.size), cap⟩) ∧
    (∀ (L : List Block) (B : Block) (R : List Block) (fr : List Nat) (cap : Nat),
      (∀ b ∈ L, 0 < b.size) → freeNbr L.getLast? = none → freeNbr R.head? = none →
      coalesce ⟨L ++ B :: R, fr, cap⟩ (40 + sumSizes L) =
        ⟨L ++ B :: R, add_to_list fr (40 + sumSizes L), cap⟩) := by
  refine ⟨?_, ?_, ?_, ?_, ?_⟩
  · intro L' P B N R' fr cap hpos hP hN
    exact coalesce_case4 hpos hP hN
  · intro fr pA nA hnd hpin hnin hne
    have hc1 : fr.count pA = 1 := List.count_eq_one_of_mem hnd hpin
    have hc2 : fr.count nA = 1 := List.count_eq_one_of_mem hnd hnin
    unfold add_to_list remove_from_list
    constructor
    · rw [List.count_append, List.count_erase_of_ne hne, List.count_erase_self, hc1]
      simp
    · rw [List.count_append, List.count_erase_self,
        List.count_erase_of_ne (Ne.symm hne), hc2]
      simp [Ne.symm hne]
  · intro L B N R' fr cap hpos hprev hN
    exact coalesce_case2 hpos hprev hN
  · intro L' P B R fr cap hpos hP hnext
    exact coalesce_case3 hpos hP hnext
  · intro L B R fr cap hpos hprev hnext
    exact coalesce_case1 hpos hprev hnext

/-- C5 witness: a freed 32-byte block at address 72 between free
neighbours at 40 and 104 (case 4), and the exactly-once accounting for
its free-list update. -/
theorem claim_C5_witness :
    coalesce ⟨([] ++ [(⟨32, false, freshData 32⟩ : Block)]) ++
        (⟨32, false, freshData 32⟩ : Block) :: (⟨32, false, freshData 32⟩ : Block) :: [],
      [40, 104], 200⟩ (40 + sumSizes ([] ++ [(⟨32, false, freshData 32⟩ : Block)])) =
      ⟨[] ++ (⟨32 + (32 + 32), false, freshData (32 + (32 + 32))⟩ : Block) :: [],
       add_to_list (remove_from_list
           (remove_from_list [40, 104]
             (40 + sumSizes ([] ++ [(⟨32, false, freshData 32⟩ : Block)]) - 32))
           (40 + sumSizes ([] ++ [(⟨32, false, freshData 32⟩ : Block)]) + 32))
         (40 + sumSizes ([] ++ [(⟨32, false, freshData 32⟩ : Block)]) - 32), 200⟩ ∧
    ((add_to_list (remove_from_list (remove_from_list [40, 104] 40) 104) 40).count 40 = 1 ∧
     (add_to_list (remove_from_list (remove_from_list [40, 104] 40) 104) 40).count 104 = 0) :=
  ⟨claim_C5.1 [] ⟨32, false, freshData 32⟩ ⟨32, false, freshData 32⟩
      ⟨32, false, freshData 32⟩ [] [40, 104] 200 (by decide) rfl rfl,
   claim_C5.2.1 [40, 104] 40 104 (by decide) (by decide) (by decide) (by decide)⟩

/-- C1 counterexample: with an allocated 48-byte block followed by a
free 32-byte block at the heap top, malloc(100) finds no fit and
extends the heap.  The source's extend_heap does not coalesce the new
block with the free predecessor, so placement happens in the fresh
extension block and returns payload 128, and the old free block at 88
survives as a separate free block; the behaviour the claim describes
(extend, coalesce with the free predecessor, then place in the result)
would place at the merged block and return payload 96. -/
theorem claim_C1_counterexample :
    (malloc exampleTopFree 100).2 = some 128 ∧
    (malloc_specExt exampleTopFree 100).2 = some 96 ∧
    (malloc exampleTopFree 100).2 ≠ (malloc_specExt exampleTopFree 100).2 ∧
    (malloc exampleTopFree 100).1.blocks.map shape =
      [(48, true), (32, false), (128, true), (3968, false)] := by
  refine ⟨by decide, by decide, by decide, by decide⟩

/-- C1 (amended): when allocate finds no fitting free block it extends
the heap by max(adjusted_size, chunk_size); the extension appends the
new free block to the heap and to the free-list tail WITHOUT coalescing
it with a free physical predecessor, and the request is then placed in
the fresh block (extension failure propagates as a null result with the
state unchanged).  Nonetheless, after every public operation run from a
well-formed state with the operation's preconditions met, the resulting
state is well-formed; in particular no two physically adjacent blocks
are both free. -/
theorem claim_C1 :
    (∀ (s : State) (esz : Nat) (s1 : State) (b : Nat),
      extend_heap s esz = some (s1, b) →
      b = heapTop s ∧
      s1.blocks = s.blocks ++
        [⟨round_up esz dsize, false, freshData (round_up esz dsize)⟩] ∧
      s1.free = s.free ++ [heapTop s]) ∧
    (∀ (s : State) (n : Nat), n ≠ 0 →
      find_fit s (round_up ((n + dsize) % W) dsize) = none →
      (∀ s1 b,
        extend_heap s (max (round_up ((n + dsize) % W) dsize) chunksize) =
          some (s1, b) →
        malloc s n = (place s1 b (round_up ((n + dsize) % W) dsize), some (b + 8))) ∧
      (extend_heap s (max (round_up ((n + dsize) % W) dsize) chunksize) = none →
        malloc s n = (s, none))) ∧
    (∀ (op : Op) (s s' : State) (r : Option Nat),
      Wf s → OpOK op s → applyOp op s = Except.ok (s', r) →
      Wf s' ∧ noAdjFree s'.blocks) := by
  refine ⟨?_, ?_, ?_⟩
  · intro s esz s1 b h
    obtain ⟨h1, h2, h3, _⟩ := extend_heap_inv h
    exact ⟨h1, h2, h3⟩
  · intro s n h0 hf
    constructor
    · intro s1 b he
      unfold malloc
      rw [if_neg h0]
      dsimp only
      rw [hf, he]
    · intro he
      unfold malloc
      rw [if_neg h0]
      dsimp only
      rw [hf, he]
  · intro op s s' r hwf hok h
    have hwf' := applyOp_wf hwf hok h
    exact ⟨hwf', hwf'.2.1⟩

/-- C1 witness: the extension characterization at a concrete state, the
no-fit extension-failure equation on the exhausted heap, and invariant
preservation across a concrete free operation. -/
theorem claim_C1_witness :
    (extend_heap exampleTwoFree 32 =
      some (⟨exampleTwoFree.blocks ++ [⟨32, false, freshData 32⟩],
             [120, 40, 184], 9000⟩, 184) ∧
     (184 = heapTop exampleTwoFree ∧
      (⟨exampleTwoFree.blocks ++ [⟨32, false, freshData 32⟩],
        [120, 40, 184], 9000⟩ : State).blocks =
        exampleTwoFree.blocks ++
          [⟨round_up 32 dsize, false, freshData (round_up 32 dsize)⟩] ∧
      (⟨exampleTwoFree.blocks ++ [⟨32, false, freshData 32⟩],
        [120, 40, 184], 9000⟩ : State).free =
        exampleTwoFree.free ++ [heapTop exampleTwoFree])) ∧
    malloc exampleExhausted 1 = (exampleExhausted, none) ∧
    (Wf (⟨[⟨32, false, freshData 32⟩], [40], 100⟩ : State) ∧
      noAdjFree (⟨[⟨32, false, freshData 32⟩], [40], 100⟩ : State).blocks) :=
  have hext : extend_heap exampleTwoFree 32 =
      some (⟨exampleTwoFree.blocks ++ [⟨32, false, freshData 32⟩],
             [120, 40, 184], 9000⟩, 184) := by decide
  ⟨⟨hext, claim_C1.1 exampleTwoFree 32 _ 184 hext⟩,
   (claim_C1.2.1 exampleExhausted 1 (by decide) (by decide)).2 (by decide),
   claim_C1.2.2 (Op.freeOp 48) exampleExhausted
     ⟨[⟨32, false, freshData 32⟩], [40], 100⟩ none
     (by decide) (by decide) (by decide)⟩

end MM

